import Mathlib

/-!
Verification of the cls-rs colorset codec against its specification.

The Rust sources are shallowly embedded: byte buffers become `List Nat`
(each element a byte value), Rust strings become `List Char` (Lean `Char`
is a Unicode scalar value, exactly as Rust `char`), fallible operations
return `Except`/`Option`, and mutating setters are modelled as functions
returning the post-state together with the optional error (on error the
post-state is the unchanged receiver, as in the source where the error is
returned before any field is written).

The nom error model is kept: recoverable errors (running out of input in a
complete combinator) are distinguished from failures (Err::Failure raised
via from_external_error), because fold_many0 stops on the former and
propagates the latter.

The Shift-JIS table lives in the external crate encoding_rs, outside this
repository, so the character-level encoder is a parameter
m : Char → Option (List Nat) (none = unmappable); every fact proved about
the fallback logic is proved for all such maps. Witnesses instantiate it
with asciiSjis, the restriction of the WHATWG Shift_JIS encoder to ASCII,
where it agrees with encoding_rs.

The bytemuck u8-to-u16 cast inside the segment-name decoder checks the
machine address of its slice for 2-alignment. The whole-file decoder
bytes_colorset therefore takes the buffer's base address and threads the
address of every sub-slice (base plus bytes consumed) down to the cast;
the per-structure parsers exist in two forms, a plain one on lists and an
address-aware At form, proved to coincide at even addresses.
-/

namespace Cls

/-- U32MOD is 2 to the 32nd power, the modulus of Rust u32 arithmetic. -/
def U32MOD : Nat := 4294967296

/-- U16MOD is 2 to the 16th power, the modulus of Rust u16 arithmetic. -/
def U16MOD : Nat := 65536

/-- Little-endian bytes of a u16 value (zerocopy AsBytes on u16). -/
def u16le (n : Nat) : List Nat := [n % 256, n / 256 % 256]

/-- Little-endian bytes of a u32 value (zerocopy AsBytes on u32). -/
def u32le (n : Nat) : List Nat :=
  [n % 256, n / 256 % 256, n / 65536 % 256, n / 16777216 % 256]

/-- Parse errors. The incomplete constructor models a recoverable nom
Err::Error from a complete combinator running out of input, and many0Stall
models the zero-consumption guard of fold_many0; every other constructor
models an Err::Failure raised through from_external_error at the named
place in the source. -/
inductive PErr where
  | incomplete
  | many0Stall
  | castError
  | utf16Error
  | nameOver128
  | utf8Error
  | nameOver192
  | nameCountOver64
  | emptySegmentList
  | segmentCountMismatch
deriving DecidableEq, Repr

/-- Failure status of a parse error: nom propagates Err::Failure through
fold_many0 while Err::Error merely stops the iteration. -/
def PErr.isFailure : PErr → Bool
  | .incomplete => false
  | .many0Stall => false
  | _ => true

/-- nom number::complete::le_u8. -/
def le_u8 (input : List Nat) : Except PErr (List Nat × Nat) :=
  match input with
  | b0 :: rest => .ok (rest, b0)
  | _ => .error .incomplete

/-- nom number::complete::le_u16. -/
def le_u16 (input : List Nat) : Except PErr (List Nat × Nat) :=
  match input with
  | b0 :: b1 :: rest => .ok (rest, b0 + 256 * b1)
  | _ => .error .incomplete

/-- nom number::complete::le_u32. -/
def le_u32 (input : List Nat) : Except PErr (List Nat × Nat) :=
  match input with
  | b0 :: b1 :: b2 :: b3 :: rest =>
      .ok (rest, b0 + 256 * b1 + 65536 * b2 + 16777216 * b3)
  | _ => .error .incomplete

/-- nom bytes::complete::take. -/
def takeBytes (n : Nat) (input : List Nat) : Except PErr (List Nat × List Nat) :=
  if n ≤ input.length then .ok (input.drop n, input.take n) else .error .incomplete

/-!
UTF-16, as used by Rust str::encode_utf16 and String::from_utf16.
-/

/-- UTF-16 code units of one scalar value (an element of Rust
str::encode_utf16). -/
def utf16Units (c : Char) : List Nat :=
  if c.toNat < 65536 then [c.toNat]
  else [55296 + (c.toNat - 65536) / 1024, 56320 + (c.toNat - 65536) % 1024]

/-- Number of UTF-16 code units of a string, Rust encode_utf16().count(). -/
def utf16Count (s : List Char) : Nat := ((s.map utf16Units).map List.length).sum

/-- UTF-16LE bytes of a string: each code unit through u16::to_le_bytes,
flattened, as in ColorName::extend_bytes. -/
def utf16LeBytes (s : List Char) : List Nat :=
  (((s.map utf16Units).flatten).map u16le).flatten

/-- bytemuck try_cast_slice from u8 to u16 on a little-endian host, the
length part: fails on odd length (OutputSliceWouldHaveSlop), otherwise
pairs bytes into u16 values. The alignment check of the real cast is on
the address of the slice and is modelled separately in tryCastSliceU16. -/
def bytesToU16s : List Nat → Option (List Nat)
  | [] => some []
  | b0 :: b1 :: rest => (bytesToU16s rest).map (fun us => (b0 + 256 * b1) :: us)
  | _ => none

/-- bytemuck try_cast_slice from u8 to u16 with the machine address of the
byte slice made explicit: u16 has alignment 2, so a slice starting at an
odd address fails (TargetAlignmentGreaterAndInputNotAligned, checked
before the length), otherwise the length check and pairing run. -/
def tryCastSliceU16 (addr : Nat) (bytes : List Nat) : Option (List Nat) :=
  if addr % 2 = 0 then bytesToU16s bytes else none

/-- Rust String::from_utf16: decodes code units, rejecting unpaired or
out-of-order surrogates. -/
def utf16DecodeUnits : List Nat → Option (List Char)
  | [] => some []
  | u :: rest =>
    if u < 55296 ∨ (57344 ≤ u ∧ u < 65536) then
      (utf16DecodeUnits rest).map (fun cs => Char.ofNat u :: cs)
    else if 55296 ≤ u ∧ u < 56320 then
      match rest with
      | l :: rest2 =>
        if 56320 ≤ l ∧ l < 57344 then
          (utf16DecodeUnits rest2).map
            (fun cs => Char.ofNat (65536 + (u - 55296) * 1024 + (l - 56320)) :: cs)
        else none
      | [] => none
    else none

/-!
UTF-8, as used by Rust char::len_utf8, str::len, String::from_utf8.
-/

/-- UTF-8 bytes of one scalar value. -/
def utf8EncodeChar (c : Char) : List Nat :=
  let v := c.toNat
  if v < 128 then [v]
  else if v < 2048 then [192 + v / 64, 128 + v % 64]
  else if v < 65536 then [224 + v / 4096, 128 + v / 64 % 64, 128 + v % 64]
  else [240 + v / 262144, 128 + v / 4096 % 64, 128 + v / 64 % 64, 128 + v % 64]

/-- Rust char::len_utf8: the number of UTF-8 bytes of one scalar. -/
def lenUtf8 (c : Char) : Nat := (utf8EncodeChar c).length

/-- UTF-8 byte length of a string, Rust str::len. -/
def utf8Len (s : List Char) : Nat := (s.map lenUtf8).sum

/-- UTF-8 bytes of a string. -/
def utf8Encode (s : List Char) : List Nat := (s.map utf8EncodeChar).flatten

/-- Accept a recombined scalar value v decoded from the consumed bytes bs:
it must be a valid (non-surrogate, in-range) scalar whose canonical
encoding reproduces bs, so exactly the valid UTF-8 sequences are
accepted - the same set Rust String::from_utf8 accepts. -/
def utf8Accept (v : Nat) (bs rest : List Nat) : Option (Char × List Nat) :=
  if Nat.isValidChar v then
    if utf8EncodeChar (Char.ofNat v) = bs then some (Char.ofNat v, rest) else none
  else none

theorem utf8Accept_rest (v : Nat) (bs rest : List Nat) (c : Char) (r : List Nat)
    (h : utf8Accept v bs rest = some (c, r)) : r = rest := by
  unfold utf8Accept at h
  split at h
  · split at h
    · simp only [Option.some.injEq, Prod.mk.injEq] at h
      exact h.2.symm
    · exact absurd h (by simp)
  · exact absurd h (by simp)

/-- Second and later bytes of a 2-byte sequence. -/
def utf8Decode2 (b0 : Nat) : List Nat → Option (Char × List Nat)
  | b1 :: rest2 => utf8Accept ((b0 - 192) * 64 + (b1 - 128)) [b0, b1] rest2
  | _ => none

/-- Second and later bytes of a 3-byte sequence. -/
def utf8Decode3 (b0 : Nat) : List Nat → Option (Char × List Nat)
  | b1 :: b2 :: rest2 =>
      utf8Accept ((b0 - 224) * 4096 + (b1 - 128) * 64 + (b2 - 128)) [b0, b1, b2] rest2
  | _ => none

/-- Second and later bytes of a 4-byte sequence. -/
def utf8Decode4 (b0 : Nat) : List Nat → Option (Char × List Nat)
  | b1 :: b2 :: b3 :: rest2 =>
      utf8Accept ((b0 - 240) * 262144 + (b1 - 128) * 4096 + (b2 - 128) * 64 + (b3 - 128))
        [b0, b1, b2, b3] rest2
  | _ => none

/-- Decode one UTF-8 scalar from the front of a byte list; the lead byte
fixes the sequence length. -/
def utf8DecodeChar : List Nat → Option (Char × List Nat)
  | [] => none
  | b0 :: rest =>
    if b0 < 128 then utf8Accept b0 [b0] rest
    else if b0 < 224 then utf8Decode2 b0 rest
    else if b0 < 240 then utf8Decode3 b0 rest
    else utf8Decode4 b0 rest

theorem utf8Decode2_shrinks (b0 : Nat) (tl : List Nat) (c : Char) (rest : List Nat)
    (h : utf8Decode2 b0 tl = some (c, rest)) : rest.length < tl.length + 1 := by
  match tl with
  | [] => simp [utf8Decode2] at h
  | b1 :: tl2 =>
    have hr := utf8Accept_rest _ _ _ _ _ h
    subst hr
    simp
    omega

theorem utf8Decode3_shrinks (b0 : Nat) (tl : List Nat) (c : Char) (rest : List Nat)
    (h : utf8Decode3 b0 tl = some (c, rest)) : rest.length < tl.length + 1 := by
  match tl with
  | [] => simp [utf8Decode3] at h
  | [b1] => simp [utf8Decode3] at h
  | b1 :: b2 :: tl2 =>
    have hr := utf8Accept_rest _ _ _ _ _ h
    subst hr
    simp
    omega

theorem utf8Decode4_shrinks (b0 : Nat) (tl : List Nat) (c : Char) (rest : List Nat)
    (h : utf8Decode4 b0 tl = some (c, rest)) : rest.length < tl.length + 1 := by
  match tl with
  | [] => simp [utf8Decode4] at h
  | [b1] => simp [utf8Decode4] at h
  | [b1, b2] => simp [utf8Decode4] at h
  | b1 :: b2 :: b3 :: tl2 =>
    have hr := utf8Accept_rest _ _ _ _ _ h
    subst hr
    simp
    omega

theorem utf8DecodeChar_shrinks (input : List Nat) (c : Char) (rest : List Nat)
    (h : utf8DecodeChar input = some (c, rest)) : rest.length < input.length := by
  match input with
  | [] => simp [utf8DecodeChar] at h
  | b0 :: tl =>
    simp only [utf8DecodeChar] at h
    split at h
    · have hr := utf8Accept_rest _ _ _ _ _ h
      subst hr
      simp
    · split at h
      · simpa using utf8Decode2_shrinks _ _ _ _ h
      · split at h
        · simpa using utf8Decode3_shrinks _ _ _ _ h
        · simpa using utf8Decode4_shrinks _ _ _ _ h

/-- Rust String::from_utf8 on a byte list: decodes scalar by scalar,
none on any invalid sequence. -/
def utf8Decode (input : List Nat) : Option (List Char) :=
  match hm : utf8DecodeChar input with
  | some (c, rest) =>
    have : rest.length < input.length := utf8DecodeChar_shrinks input c rest hm
    (utf8Decode rest).map (fun cs => c :: cs)
  | none =>
    match input with
    | [] => some []
    | _ => none
termination_by input.length

/-!
Data model, from src/src/colorset/color.rs, name.rs and mod.rs.
-/

/-- Color from src/src/colorset/color.rs: RGB plus transparency. -/
structure Color where
  red : Nat
  green : Nat
  blue : Nat
  transparency : Bool
deriving DecidableEq, Repr

/-- Color::new. -/
def Color.new (red green blue : Nat) (transparency : Bool) : Color :=
  { red := red, green := green, blue := blue, transparency := transparency }

/-- Color::set_rgb. -/
def Color.set_rgb (self : Color) (red green blue : Nat) : Color :=
  { self with red := red, green := green, blue := blue }

/-- Color::set_transparency. -/
def Color.set_transparency (self : Color) (transparency : Bool) : Color :=
  { self with transparency := transparency }

/-- ExtendBytesMut for Color: the four bytes appended to the buffer. -/
def Color.extend_bytes (self : Color) : List Nat :=
  if self.transparency then [0, 0, 0, 0]
  else [self.red, self.green, self.blue, 255]

/-- bytes_color from src/src/colorset/color.rs: four le_u8 reads, then the
fourth byte decides transparency. -/
def bytes_color (input : List Nat) : Except PErr (List Nat × Color) :=
  match le_u8 input with
  | .error e => .error e
  | .ok (input, red) =>
    match le_u8 input with
    | .error e => .error e
    | .ok (input, green) =>
      match le_u8 input with
      | .error e => .error e
      | .ok (input, blue) =>
        match le_u8 input with
        | .error e => .error e
        | .ok (input, tp) =>
          if tp = 0 then .ok (input, Color.new 0 0 0 true)
          else .ok (input, Color.new red green blue false)

/-- ColorNameError from src/src/colorset/color.rs. -/
inductive ColorNameError where
  | EncodedStringOver128Bytes
deriving DecidableEq, Repr

/-- ColorName from src/src/colorset/color.rs: a string plus its derived
UTF-16 byte length (a u16 field in the source, always at most 128 for
values produced by set_str). -/
structure ColorName where
  val : List Char
  bytes_len_utf16 : Nat
deriving DecidableEq, Repr

/-- ColorName::new. -/
def ColorName.new : ColorName := { val := [], bytes_len_utf16 := 0 }

/-- ColorName::set_str, modelled as post-state plus optional error: on
error the receiver is returned unchanged, exactly as the source returns
Err before assigning any field. -/
def ColorName.set_str (self : ColorName) (val : List Char) : ColorName × Option ColorNameError :=
  if utf16Count val * 2 > 128 then (self, some .EncodedStringOver128Bytes)
  else ({ val := val, bytes_len_utf16 := utf16Count val * 2 }, none)

/-- ColorName::with_str: set_str on a fresh ColorName. -/
def ColorName.with_str (val : List Char) : ColorName × Option ColorNameError :=
  ColorName.new.set_str val

/-- ClsSize for ColorName: content size is the stored UTF-16 byte length. -/
def ColorName.size_contents_in_cls (self : ColorName) : Nat := self.bytes_len_utf16

/-- ClsSize for ColorName including the u16 length header. The u16 field
widened to u32 cannot wrap. -/
def ColorName.size_in_cls (self : ColorName) : Nat := 2 + self.size_contents_in_cls

/-- ExtendBytesMut for ColorName: u16 length header then UTF-16LE units. -/
def ColorName.extend_bytes (self : ColorName) : List Nat :=
  u16le self.bytes_len_utf16 ++ utf16LeBytes self.val

/-- bytes_color_name from src/src/colorset/color.rs: u16 length, that many
bytes, bytemuck cast to u16 units, String::from_utf16, then a defensive
set_str revalidation. The three failure paths are nom Err::Failure. This
form models the parser on a slice whose address satisfies the cast's
alignment precondition; bytes_color_nameAt below threads the address and
coincides with this one at every even address (proved below). -/
def bytes_color_name (input : List Nat) : Except PErr (List Nat × ColorName) :=
  match le_u16 input with
  | .error e => .error e
  | .ok (input, color_name_size) =>
    match takeBytes color_name_size input with
    | .error e => .error e
    | .ok (input, color_name_bytes) =>
      match bytesToU16s color_name_bytes with
      | none => .error .castError
      | some units =>
        match utf16DecodeUnits units with
        | none => .error .utf16Error
        | some chars =>
          match ColorName.new.set_str chars with
          | (_, some _) => .error .nameOver128
          | (cn, none) => .ok (input, cn)

/-- bytes_color_name with the machine address of its input slice made
explicit: the u16 length header occupies 2 bytes, so the name bytes handed
to the bytemuck cast start at addr + 2 and the cast checks that address
for 2-alignment before the length. -/
def bytes_color_nameAt (addr : Nat) (input : List Nat) : Except PErr (List Nat × ColorName) :=
  match le_u16 input with
  | .error e => .error e
  | .ok (input, color_name_size) =>
    match takeBytes color_name_size input with
    | .error e => .error e
    | .ok (input, color_name_bytes) =>
      match tryCastSliceU16 (addr + 2) color_name_bytes with
      | none => .error .castError
      | some units =>
        match utf16DecodeUnits units with
        | none => .error .utf16Error
        | some chars =>
          match ColorName.new.set_str chars with
          | (_, some _) => .error .nameOver128
          | (cn, none) => .ok (input, cn)

/-- ColorSegment from src/src/colorset/color.rs. -/
structure ColorSegment where
  color : Color
  color_name : Option ColorName
deriving DecidableEq, Repr

/-- ColorSegment::new. -/
def ColorSegment.new (color : Color) (color_name : Option ColorName) : ColorSegment :=
  { color := color, color_name := color_name }

/-- ClsSize for Color: the wire size of a color is 4 bytes. -/
def Color.size_in_cls (_ : Color) : Nat := 4

/-- ClsSize for ColorSegment, content part: color, u32 name flag, and the
name block when present. With the u16 name-length field this sum stays far
below the u32 modulus. -/
def ColorSegment.size_contents_in_cls (self : ColorSegment) : Nat :=
  self.color.size_in_cls + 4 +
    (match self.color_name with
     | some color_name => color_name.size_in_cls
     | none => 0)

/-- ClsSize for ColorSegment including its own u32 size header. -/
def ColorSegment.size_in_cls (self : ColorSegment) : Nat := 4 + self.size_contents_in_cls

/-- ExtendBytesMut for ColorSegment: u32 content-size header, color bytes,
u32 name flag, then the name block when present. -/
def ColorSegment.extend_bytes (self : ColorSegment) : List Nat :=
  u32le self.size_contents_in_cls ++ self.color.extend_bytes ++
    (match self.color_name with
     | some color_name => u32le 1 ++ color_name.extend_bytes
     | none => u32le 0)

/-- bytes_color_segment from src/src/colorset/color.rs: discarded u32 size
header, color, u32 flag; a name is decoded exactly when the flag is 1. -/
def bytes_color_segment (input : List Nat) : Except PErr (List Nat × ColorSegment) :=
  match le_u32 input with
  | .error e => .error e
  | .ok (input, _) =>
    match bytes_color input with
    | .error e => .error e
    | .ok (input, color) =>
      match le_u32 input with
      | .error e => .error e
      | .ok (input, exists_color_name) =>
        if exists_color_name = 1 then
          match bytes_color_name input with
          | .error e => .error e
          | .ok (input, color_name) =>
              .ok (input, { color := color, color_name := some color_name })
        else .ok (input, { color := color, color_name := none })

/-- bytes_color_segment with the machine address of its input slice made
explicit: the u32 size header, the color and the u32 flag occupy 12 bytes,
so the name block, when present, starts at addr + 12. -/
def bytes_color_segmentAt (addr : Nat) (input : List Nat) :
    Except PErr (List Nat × ColorSegment) :=
  match le_u32 input with
  | .error e => .error e
  | .ok (input, _) =>
    match bytes_color input with
    | .error e => .error e
    | .ok (input, color) =>
      match le_u32 input with
      | .error e => .error e
      | .ok (input, exists_color_name) =>
        if exists_color_name = 1 then
          match bytes_color_nameAt (addr + 12) input with
          | .error e => .error e
          | .ok (input, color_name) =>
              .ok (input, { color := color, color_name := some color_name })
        else .ok (input, { color := color, color_name := none })

/-!
Shift-JIS best-effort encoder, from ColorsetName::encode_sjis in
src/src/colorset/name.rs. The character table lives in the external crate
encoding_rs, so the per-character encoder is a parameter m; the loop
around the streaming encoder is embedded faithfully.
-/

/-- Replacement emitted for an unmappable character: two spaces for a
4-byte UTF-8 character, one space otherwise. -/
def sjisSpaces (c : Char) : List Nat := if lenUtf8 c = 4 then [32, 32] else [32]

/-- One call to encoder.encode_from_utf8_to_vec_without_replacement: the
bytes of the longest mappable prefix, then the first unmappable character
(if any) and the input remaining after it (encoding_rs reports an offset
past the unmappable character). -/
def sjisEncodeCall (m : Char → Option (List Nat)) : List Char → List Nat × Option Char × List Char
  | [] => ([], none, [])
  | c :: rest =>
    match m c with
    | none => ([], some c, rest)
    | some bs =>
      let tail := sjisEncodeCall m rest
      (bs ++ tail.1, tail.2.1, tail.2.2)

theorem sjisEncodeCall_rem_shrinks (m : Char → Option (List Nat)) (s : List Char) (c : Char)
    (h : (sjisEncodeCall m s).2.1 = some c) : (sjisEncodeCall m s).2.2.length < s.length := by
  induction s with
  | nil => simp [sjisEncodeCall] at h
  | cons c0 rest ih =>
    simp only [sjisEncodeCall] at h ⊢
    match hm : m c0 with
    | none => simp [hm]
    | some bs =>
      simp only [hm] at h ⊢
      exact Nat.lt_succ_of_lt (ih h)

/-- ColorsetName::encode_sjis loop: repeated encoder calls; after each
unmappable report, push one or two spaces and continue on the remainder. -/
def encode_sjis (m : Char → Option (List Nat)) (s : List Char) : List Nat :=
  match hc : sjisEncodeCall m s with
  | (bs, none, _) => bs
  | (bs, some c, rem) =>
    have : rem.length < s.length := by
      have h1 : (sjisEncodeCall m s).2.1 = some c := by rw [hc]
      have h2 := sjisEncodeCall_rem_shrinks m s c h1
      rw [hc] at h2
      exact h2
    bs ++ sjisSpaces c ++ encode_sjis m rem
termination_by s.length

/-- Character-level restriction of the WHATWG Shift_JIS encoder to ASCII,
where it is the identity; every other scalar is treated as unmappable.
Witness values below only apply it to ASCII strings, on which it agrees
with encoding_rs. -/
def asciiSjis (c : Char) : Option (List Nat) :=
  if c.toNat < 128 then some [c.toNat] else none

/-!
ColorsetName, from src/src/colorset/name.rs.
-/

/-- ColorsetNameError from src/src/colorset/name.rs. -/
inductive ColorsetNameError where
  | StringOver192Bytes
  | CharCountExceeded64
deriving DecidableEq, Repr

/-- ColorsetName from src/src/colorset/name.rs: a UTF-8 string. -/
structure ColorsetName where
  val : List Char
deriving DecidableEq, Repr

/-- ColorsetName::new. -/
def ColorsetName.new : ColorsetName := { val := [] }

/-- Weighted character count of ColorsetName::set_str: a 4-byte UTF-8
character counts as 2, every other character as 1. -/
def weightedCount (s : List Char) : Nat :=
  s.foldl (fun cn c => cn + (if lenUtf8 c = 4 then 2 else 1)) 0

/-- ColorsetName::set_str, post-state plus optional error: byte-length
check first, then the weighted character-count check; on error the
receiver is unchanged. -/
def ColorsetName.set_str (self : ColorsetName) (val : List Char) :
    ColorsetName × Option ColorsetNameError :=
  if utf8Len val > 192 then (self, some .StringOver192Bytes)
  else if weightedCount val > 64 then (self, some .CharCountExceeded64)
  else ({ val := val }, none)

/-- ClsSize for ColorsetName, content part: 8 plus the two payload
lengths, each truncated to u32 as the source casts with as u32, the sum
reduced modulo the u32 modulus. -/
def ColorsetName.size_contents_in_cls (m : Char → Option (List Nat)) (self : ColorsetName) : Nat :=
  (8 + (encode_sjis m self.val).length % U32MOD + utf8Len self.val % U32MOD) % U32MOD

/-- ClsSize for ColorsetName including its u32 block-size header. -/
def ColorsetName.size_in_cls (m : Char → Option (List Nat)) (self : ColorsetName) : Nat :=
  (4 + self.size_contents_in_cls m) % U32MOD

/-- ExtendBytesMut for ColorsetName: u32 block-size header, u16 Shift-JIS
length and bytes, u32 zero delimiter, u16 UTF-8 length and bytes. The
length headers carry the lengths cast to u16 as in the source. -/
def ColorsetName.extend_bytes (m : Char → Option (List Nat)) (self : ColorsetName) : List Nat :=
  let sjis_buf := encode_sjis m self.val
  let sjis_buf_size := sjis_buf.length % U16MOD
  let utf8_buf := utf8Encode self.val
  let utf8_buf_size := utf8Len self.val % U16MOD
  let bytesize_header := 8 + sjis_buf_size + utf8_buf_size
  u32le bytesize_header ++ u16le sjis_buf_size ++ sjis_buf ++ u32le 0 ++
    u16le utf8_buf_size ++ utf8_buf

/-- bytes_colorset_name from src/src/colorset/name.rs: the block-size
header is read and discarded, the Shift-JIS copy is skipped via its
length, the UTF-8 copy is decoded (Err::Failure on invalid UTF-8) and
revalidated through set_str. -/
def bytes_colorset_name (input : List Nat) : Except PErr (List Nat × ColorsetName) :=
  match le_u32 input with
  | .error e => .error e
  | .ok (input, _) =>
    match le_u16 input with
    | .error e => .error e
    | .ok (input, sjis_bytes_size) =>
      match takeBytes sjis_bytes_size input with
      | .error e => .error e
      | .ok (input, _) =>
        match le_u32 input with
        | .error e => .error e
        | .ok (input, _) =>
          match le_u16 input with
          | .error e => .error e
          | .ok (input, utf8_bytes_size) =>
            match takeBytes utf8_bytes_size input with
            | .error e => .error e
            | .ok (input, utf8_bytes) =>
              match utf8Decode utf8_bytes with
              | none => .error .utf8Error
              | some chars =>
                match ColorsetName.new.set_str chars with
                | (_, some .StringOver192Bytes) => .error .nameOver192
                | (_, some .CharCountExceeded64) => .error .nameCountOver64
                | (csn, none) => .ok (input, csn)

/-!
ColorSegments and Colorset, from src/src/colorset/mod.rs.
-/

/-- ColorSegments from src/src/colorset/mod.rs: a vector of segments. -/
structure ColorSegments where
  val : List ColorSegment
deriving DecidableEq, Repr

/-- ColorSegmentsError from src/src/colorset/mod.rs. -/
inductive ColorSegmentsError where
  | RemoveIndexError
deriving DecidableEq, Repr

/-- ColorSegments::new: one segment, transparent black, named Color0 (the
with_str call cannot fail on Color0, so its unwrap takes the ok branch,
modelled by the post-state component). -/
def ColorSegments.new : ColorSegments :=
  { val := [ColorSegment.new (Color.new 0 0 0 true)
      (some (ColorName.with_str ("Color0".data)).1)] }

/-- ColorSegments::remove: index check, then Vec::remove. -/
def ColorSegments.remove (self : ColorSegments) (index : Nat) :
    ColorSegments × Except ColorSegmentsError ColorSegment :=
  if h : index < self.val.length then
    ({ val := self.val.eraseIdx index }, .ok (self.val.get ⟨index, h⟩))
  else (self, .error .RemoveIndexError)

/-- ColorSegments::push. -/
def ColorSegments.push (self : ColorSegments) (color_segment : ColorSegment) : ColorSegments :=
  { val := self.val ++ [color_segment] }

/-- ClsSize for ColorSegments, content part: the u32 fold of the segment
sizes, each addition reduced modulo the u32 modulus as Rust u32 addition
wraps. -/
def ColorSegments.size_contents_in_cls (self : ColorSegments) : Nat :=
  self.val.foldl (fun acc item => (acc + item.size_in_cls) % U32MOD) 0

/-- ClsSize for ColorSegments: count header, size header, contents. -/
def ColorSegments.size_in_cls (self : ColorSegments) : Nat :=
  (4 + 4 + self.size_contents_in_cls) % U32MOD

/-- ExtendBytesMut for ColorSegments: u32 segment count (len as u32), u32
total content size, then each segment in order. -/
def ColorSegments.extend_bytes (self : ColorSegments) : List Nat :=
  u32le self.val.length ++ u32le self.size_contents_in_cls ++
    (self.val.map ColorSegment.extend_bytes).flatten

/-- fold_many0 of bytes_color_segment: on parser success the input must
shrink (the nom zero-consumption guard, an Err::Error; bytes_color_segment
always consumes, so the guard never fires); on a recoverable parser error
the loop stops; an Err::Failure is propagated. -/
def many0ColorSegments (input : List Nat) : Except PErr (List Nat × List ColorSegment) :=
  match bytes_color_segment input with
  | .error e => if e.isFailure then .error e else .ok (input, [])
  | .ok (rest, seg) =>
    if h : rest.length < input.length then
      match many0ColorSegments rest with
      | .error e => .error e
      | .ok (rest2, segs) => .ok (rest2, seg :: segs)
    else .error .many0Stall
termination_by input.length

/-- bytes_color_segments from src/src/colorset/mod.rs: u32 declared count,
u32 size field read and discarded, fold_many0 of segments, then the
emptiness check and the count comparison done with the vector length cast
to u32 (len as u32, hence modulo the u32 modulus). -/
def bytes_color_segments (input : List Nat) : Except PErr (List Nat × ColorSegments) :=
  match le_u32 input with
  | .error e => .error e
  | .ok (input, num_colors) =>
    match le_u32 input with
    | .error e => .error e
    | .ok (input, _) =>
      match many0ColorSegments input with
      | .error e => .error e
      | .ok (input, color_segment_vec) =>
        if color_segment_vec.isEmpty then .error .emptySegmentList
        else if color_segment_vec.length % U32MOD ≠ num_colors then
          .error .segmentCountMismatch
        else .ok (input, { val := color_segment_vec })

/-- fold_many0 of bytes_color_segment with the machine address of the
input slice made explicit: each successful record advances the address by
exactly the bytes it consumed. -/
def many0ColorSegmentsAt (addr : Nat) (input : List Nat) :
    Except PErr (List Nat × List ColorSegment) :=
  match bytes_color_segmentAt addr input with
  | .error e => if e.isFailure then .error e else .ok (input, [])
  | .ok (rest, seg) =>
    if h : rest.length < input.length then
      match many0ColorSegmentsAt (addr + (input.length - rest.length)) rest with
      | .error e => .error e
      | .ok (rest2, segs) => .ok (rest2, seg :: segs)
    else .error .many0Stall
termination_by input.length

/-- bytes_color_segments with the machine address of its input slice made
explicit: the two u32 headers occupy 8 bytes, so the record fold starts at
addr + 8. -/
def bytes_color_segmentsAt (addr : Nat) (input : List Nat) :
    Except PErr (List Nat × ColorSegments) :=
  match le_u32 input with
  | .error e => .error e
  | .ok (input, num_colors) =>
    match le_u32 input with
    | .error e => .error e
    | .ok (input, _) =>
      match many0ColorSegmentsAt (addr + 8) input with
      | .error e => .error e
      | .ok (input, color_segment_vec) =>
        if color_segment_vec.isEmpty then .error .emptySegmentList
        else if color_segment_vec.length % U32MOD ≠ num_colors then
          .error .segmentCountMismatch
        else .ok (input, { val := color_segment_vec })

/-- CLS_HEADER from src/src/colorset/mod.rs. -/
def CLS_HEADER : List Nat := [83, 76, 67, 67, 0, 1]

/-- Colorset from src/src/colorset/mod.rs. -/
structure Colorset where
  name : ColorsetName
  color_segments : ColorSegments
deriving DecidableEq, Repr

/-- Colorset::new: default name NewColorset (set_str cannot fail on it, so
the unwrap takes the ok branch, modelled by the post-state component) and
the default segment list. -/
def Colorset.new : Colorset :=
  { name := (ColorsetName.new.set_str ("NewColorset".data)).1,
    color_segments := ColorSegments.new }

/-- ClsSize for Colorset, content part: 6-byte header, name block, u32
reserved field, segment list; u32 arithmetic. -/
def Colorset.size_contents_in_cls (m : Char → Option (List Nat)) (self : Colorset) : Nat :=
  (6 + self.name.size_in_cls m + 4 + self.color_segments.size_in_cls) % U32MOD

/-- ExtendBytesMut for Colorset: header, name, reserved u32 value 4,
segment list. -/
def Colorset.extend_bytes (m : Char → Option (List Nat)) (self : Colorset) : List Nat :=
  CLS_HEADER ++ self.name.extend_bytes m ++ u32le 4 ++ self.color_segments.extend_bytes

/-- Colorset::as_bytes: extend_bytes into a fresh buffer (the capacity
hint does not affect the contents). -/
def Colorset.as_bytes (m : Char → Option (List Nat)) (self : Colorset) : List Nat :=
  self.extend_bytes m

/-- bytes_colorset from src/src/colorset/mod.rs: skip the 6 header bytes
without validating them, decode the name, skip the reserved u32, decode
the segments. base is the machine address at which the input buffer
starts; every sub-slice address is base plus the bytes consumed before it,
and the bytemuck cast deep inside the segment-name decoding checks its
slice address for 2-alignment, so the addresses are threaded through.
Real allocators (dlmalloc on the wasm target included) return buffers at
even addresses, so the theorems below take base even. -/
def bytes_colorset (base : Nat) (input : List Nat) : Except PErr (List Nat × Colorset) :=
  match takeBytes 6 input with
  | .error e => .error e
  | .ok (input1, _) =>
    match bytes_colorset_name input1 with
    | .error e => .error e
    | .ok (input2, colorset_name) =>
      match le_u32 input2 with
      | .error e => .error e
      | .ok (input3, _) =>
        match bytes_color_segmentsAt (base + (input.length - input3.length)) input3 with
        | .error e => .error e
        | .ok (input4, color_segments) =>
            .ok (input4, { name := colorset_name, color_segments := color_segments })

/-!
Round-trip normalization and well-formedness. The normalization functions
state the documented transparency quirk: a transparent color reaches the
wire as four zero bytes, so it is re-read as transparent black. The wf
predicates are the data-model invariants: a ColorName field is the derived
length and within 128; a ColorsetName is within 192 bytes and weighted
count 64.
-/

/-- Transparency normalization of the round trip: a transparent color
comes back as transparent black, an opaque color is unchanged. -/
def Color.normalize (self : Color) : Color :=
  if self.transparency then Color.new 0 0 0 true else self

/-- Normalization lifted to a segment: only the color changes. -/
def ColorSegment.normalize (self : ColorSegment) : ColorSegment :=
  { self with color := self.color.normalize }

/-- Normalization lifted to a whole colorset. -/
def Colorset.normalize (self : Colorset) : Colorset :=
  { self with color_segments := { val := self.color_segments.val.map ColorSegment.normalize } }

/-- Data-model invariant of ColorName: the stored length is the derived
UTF-16 byte length and is at most 128. -/
def ColorName.wf (self : ColorName) : Bool :=
  self.bytes_len_utf16 == utf16Count self.val * 2 && Nat.ble (utf16Count self.val * 2) 128

/-- Data-model invariant of a segment: its name, when present, is well
formed. -/
def ColorSegment.wf (self : ColorSegment) : Bool :=
  match self.color_name with
  | none => true
  | some color_name => color_name.wf

/-- Data-model invariant of ColorsetName: UTF-8 length at most 192 and
weighted character count at most 64. -/
def ColorsetName.wf (self : ColorsetName) : Bool :=
  Nat.ble (utf8Len self.val) 192 && Nat.ble (weightedCount self.val) 64

/-- Data-model invariant of a colorset: name and all segments well
formed. -/
def Colorset.wf (self : Colorset) : Bool :=
  self.name.wf && self.color_segments.val.all ColorSegment.wf

/-!
Hex color parsing, from parse_hex_color in
src/src/colorset/color_segments/color_segment/color.rs. Rust indexes
strings by bytes and panics when a range endpoint is not a character
boundary, so string slicing is modelled as a partial operation on the
character list; the outer Option is the panic: none models an aborted
call, some carries the ordinary Result.
-/

/-- ParseHexColorError from the source; the ParseIntError payload carries
no information used here. -/
inductive ParseHexColorError where
  | InvalidHexColorStrError
  | ParseIntError
deriving DecidableEq, Repr

/-- Rust byte slice s[a..b] on a string: walk characters tracking byte
offsets; none when a or b is not a character boundary (the panic) or past
the end. Callers below always have a at most b. -/
def sliceBytes : List Char → Nat → Nat → Option (List Char)
  | _, 0, 0 => some []
  | [], _, _ => none
  | c :: rest, 0, b =>
    if lenUtf8 c ≤ b then (sliceBytes rest 0 (b - lenUtf8 c)).map (fun l => c :: l)
    else none
  | c :: rest, a, b =>
    if lenUtf8 c ≤ a then sliceBytes rest (a - lenUtf8 c) (b - lenUtf8 c)
    else none

/-- Value of one hex digit, as accepted by u8::from_str_radix with radix
16. -/
def hexDigit (c : Char) : Option Nat :=
  if 48 ≤ c.toNat ∧ c.toNat ≤ 57 then some (c.toNat - 48)
  else if 97 ≤ c.toNat ∧ c.toNat ≤ 102 then some (c.toNat - 87)
  else if 65 ≤ c.toNat ∧ c.toNat ≤ 70 then some (c.toNat - 55)
  else none

/-- u8::from_str_radix(s, 16): an optional leading plus sign, then at
least one hex digit, accumulated with a u8 overflow check; none is
Err(ParseIntError). -/
def from_str_radix_16_u8 (s : List Char) : Option Nat :=
  let digits := match s with
    | c :: rest => if c = Char.ofNat 43 then rest else s
    | [] => s
  if digits.isEmpty then none
  else
    digits.foldl
      (fun acc c =>
        match acc, hexDigit c with
        | some v, some d => if v * 16 + d ≤ 255 then some (v * 16 + d) else none
        | _, _ => none)
      (some 0)

/-- Body shared by the two source branches after the number-sign handling:
dispatch on the remaining byte length, slice out each component (a
possible panic), duplicate the digit in the shorthand form, and parse the
components in source order - a parse error returns before the next slice
is taken. -/
def parseHexBody (hex : List Char) : Option (Except ParseHexColorError (Nat × Nat × Nat)) :=
  if utf8Len hex = 3 then
    match sliceBytes hex 0 1 with
    | none => none
    | some rs =>
      match from_str_radix_16_u8 (rs ++ rs) with
      | none => some (.error .ParseIntError)
      | some red =>
        match sliceBytes hex 1 2 with
        | none => none
        | some gs =>
          match from_str_radix_16_u8 (gs ++ gs) with
          | none => some (.error .ParseIntError)
          | some green =>
            match sliceBytes hex 2 3 with
            | none => none
            | some bs =>
              match from_str_radix_16_u8 (bs ++ bs) with
              | none => some (.error .ParseIntError)
              | some blue => some (.ok (red, green, blue))
  else
    match sliceBytes hex 0 2 with
    | none => none
    | some rs =>
      match from_str_radix_16_u8 rs with
      | none => some (.error .ParseIntError)
      | some red =>
        match sliceBytes hex 2 4 with
        | none => none
        | some gs =>
          match from_str_radix_16_u8 gs with
          | none => some (.error .ParseIntError)
          | some green =>
            match sliceBytes hex 4 6 with
            | none => none
            | some bs =>
              match from_str_radix_16_u8 bs with
              | none => some (.error .ParseIntError)
              | some blue => some (.ok (red, green, blue))

/-- parse_hex_color: match on the byte length; lengths 4 and 7 require a
leading number sign (checking it slices the first byte, a possible panic)
which is then stripped; lengths 3 and 6 go straight to the body; anything
else is an invalid-format error. -/
def parse_hex_color (hex_color : List Char) :
    Option (Except ParseHexColorError (Nat × Nat × Nat)) :=
  let hex_color_len := utf8Len hex_color
  if hex_color_len = 4 ∨ hex_color_len = 7 then
    match sliceBytes hex_color 0 1 with
    | none => none
    | some first =>
      if first ≠ [Char.ofNat 35] then some (.error .InvalidHexColorStrError)
      else
        match sliceBytes hex_color 1 hex_color_len with
        | none => none
        | some stripped => parseHexBody stripped
  else if hex_color_len = 3 ∨ hex_color_len = 6 then parseHexBody hex_color
  else some (.error .InvalidHexColorStrError)

/-- Color::new_with_hex_color from the color_segments snapshot: parse,
then construct with the given transparency. -/
def Color.new_with_hex_color (hex_color : List Char) (transparency : Bool) :
    Option (Except ParseHexColorError Color) :=
  match parse_hex_color hex_color with
  | none => none
  | some (.error e) => some (.error e)
  | some (.ok (red, green, blue)) => some (.ok (Color.new red green blue transparency))

/-!
Lemmas: primitives.
-/

instance {e a : Type} [DecidableEq e] [DecidableEq a] : DecidableEq (Except e a) := fun x y =>
  match x, y with
  | .error x1, .error y1 =>
    if h : x1 = y1 then .isTrue (by rw [h]) else .isFalse (fun hc => by cases hc; exact h rfl)
  | .ok x1, .ok y1 =>
    if h : x1 = y1 then .isTrue (by rw [h]) else .isFalse (fun hc => by cases hc; exact h rfl)
  | .error _, .ok _ => .isFalse (fun hc => by cases hc)
  | .ok _, .error _ => .isFalse (fun hc => by cases hc)

theorem le_u16_u16le (n : Nat) (rest : List Nat) :
    le_u16 (u16le n ++ rest) = .ok (rest, n % 65536) := by
  simp only [u16le, List.cons_append, List.nil_append, le_u16, Except.ok.injEq, Prod.mk.injEq,
    true_and]
  omega

theorem le_u32_u32le (n : Nat) (rest : List Nat) :
    le_u32 (u32le n ++ rest) = .ok (rest, n % 4294967296) := by
  simp only [u32le, List.cons_append, List.nil_append, le_u32, Except.ok.injEq, Prod.mk.injEq,
    true_and]
  omega

theorem takeBytes_exact (n : Nat) (bs rest : List Nat) (h : bs.length = n) :
    takeBytes n (bs ++ rest) = .ok (rest, bs) := by
  subst h
  simp only [takeBytes, List.length_append, Nat.le_add_right, if_pos, List.take_left,
    List.drop_left]

/-!
Lemmas: characters and UTF-16.
-/

theorem char_valid (c : Char) : Nat.isValidChar c.toNat := c.valid

theorem char_toNat_lt (c : Char) : c.toNat < 1114112 := by
  have h := char_valid c
  unfold Nat.isValidChar at h
  omega

theorem char_not_surrogate (c : Char) : ¬(55296 ≤ c.toNat ∧ c.toNat < 57344) := by
  have h := char_valid c
  unfold Nat.isValidChar at h
  omega

theorem toNat_ofNat_valid (n : Nat) (h : Nat.isValidChar n) : (Char.ofNat n).toNat = n := by
  unfold Char.ofNat
  rw [dif_pos h]
  unfold Char.ofNatAux Char.toNat
  simp [UInt32.toNat]

theorem utf16Units_lt (c : Char) : ∀ u ∈ utf16Units c, u < 65536 := by
  intro u hu
  have hlt := char_toNat_lt c
  unfold utf16Units at hu
  split at hu <;> simp only [List.mem_cons, List.mem_singleton, List.not_mem_nil, or_false] at hu
  · omega
  · rcases hu with hu | hu <;> omega

theorem utf16DecodeUnits_cons (c : Char) (us : List Nat) :
    utf16DecodeUnits (utf16Units c ++ us) =
      (utf16DecodeUnits us).map (fun cs => c :: cs) := by
  have hv := char_valid c
  have hns := char_not_surrogate c
  have hlt := char_toNat_lt c
  unfold utf16Units
  split
  · case isTrue hbmp =>
    have hcond : c.toNat < 55296 ∨ (57344 ≤ c.toNat ∧ c.toNat < 65536) := by omega
    simp only [List.cons_append, List.nil_append]
    rw [utf16DecodeUnits.eq_def]
    simp only [List.append_eq, List.nil_append]
    rw [if_pos hcond, Char.ofNat_toNat]
  · case isFalse hsup =>
    have h1 : ¬(55296 + (c.toNat - 65536) / 1024 < 55296 ∨
        (57344 ≤ 55296 + (c.toNat - 65536) / 1024 ∧
          55296 + (c.toNat - 65536) / 1024 < 65536)) := by omega
    have h2 : 55296 ≤ 55296 + (c.toNat - 65536) / 1024 ∧
        55296 + (c.toNat - 65536) / 1024 < 56320 := by omega
    have h3 : 56320 ≤ 56320 + (c.toNat - 65536) % 1024 ∧
        56320 + (c.toNat - 65536) % 1024 < 57344 := by omega
    have harg : 65536 + (55296 + (c.toNat - 65536) / 1024 - 55296) * 1024 +
        (56320 + (c.toNat - 65536) % 1024 - 56320) = c.toNat := by omega
    simp only [List.cons_append, List.nil_append]
    rw [utf16DecodeUnits.eq_def]
    simp only [List.append_eq, List.nil_append]
    rw [if_neg h1, if_pos h2]
    simp only [if_pos h3, harg, Char.ofNat_toNat]

theorem utf16DecodeUnits_encode (s : List Char) :
    utf16DecodeUnits ((s.map utf16Units).flatten) = some s := by
  induction s with
  | nil => rfl
  | cons c rest ih =>
    simp only [List.map_cons, List.flatten_cons]
    rw [utf16DecodeUnits_cons, ih]
    rfl

theorem bytesToU16s_pairs (us : List Nat) (h : ∀ u ∈ us, u < 65536) :
    bytesToU16s ((us.map u16le).flatten) = some us := by
  induction us with
  | nil => rfl
  | cons u rest ih =>
    simp only [List.map_cons, List.flatten_cons, u16le, List.cons_append, List.nil_append,
      bytesToU16s, List.append_eq]
    rw [ih (fun x hx => h x (List.mem_cons_of_mem _ hx))]
    have hu := h u (List.mem_cons_self _ _)
    have h2 : u % 256 + 256 * (u / 256 % 256) = u := by omega
    simp [h2]

theorem bytesToU16s_utf16LeBytes (s : List Char) :
    bytesToU16s (utf16LeBytes s) = some ((s.map utf16Units).flatten) := by
  unfold utf16LeBytes
  apply bytesToU16s_pairs
  intro u hu
  rcases List.mem_flatten.mp hu with ⟨l, hl, hul⟩
  rcases List.mem_map.mp hl with ⟨c, _, rfl⟩
  exact utf16Units_lt c u hul

theorem utf16Count_eq_flatten_length (s : List Char) :
    utf16Count s = ((s.map utf16Units).flatten).length := by
  unfold utf16Count
  rw [List.length_flatten]

theorem utf16LeBytes_length (s : List Char) :
    (utf16LeBytes s).length = utf16Count s * 2 := by
  unfold utf16LeBytes
  rw [utf16Count_eq_flatten_length]
  generalize (s.map utf16Units).flatten = us
  induction us with
  | nil => simp
  | cons u rest ih =>
    simp only [List.map_cons, List.flatten_cons, List.length_append, List.length_cons, ih, u16le]
    simp
    omega

/-!
Lemmas: UTF-8.
-/

theorem utf8Encode_length (s : List Char) : (utf8Encode s).length = utf8Len s := by
  unfold utf8Encode utf8Len
  rw [List.length_flatten, List.map_map]
  rfl

theorem utf8DecodeChar_encode (c : Char) (rest : List Nat) :
    utf8DecodeChar (utf8EncodeChar c ++ rest) = some (c, rest) := by
  have hv := char_valid c
  have hlt := char_toNat_lt c
  have henc : utf8EncodeChar (Char.ofNat c.toNat) = utf8EncodeChar c := by
    rw [Char.ofNat_toNat]
  have hself : ∀ bs, utf8EncodeChar c = bs → utf8Accept c.toNat bs rest = some (c, rest) := by
    intro bs hbs
    unfold utf8Accept
    rw [if_pos hv, henc, if_pos hbs, Char.ofNat_toNat]
  unfold utf8EncodeChar
  by_cases h1 : c.toNat < 128
  · rw [if_pos h1]
    simp only [List.cons_append, List.nil_append, utf8DecodeChar]
    rw [if_pos h1]
    exact hself [c.toNat] (by unfold utf8EncodeChar; rw [if_pos h1])
  · by_cases h2 : c.toNat < 2048
    · rw [if_neg h1, if_pos h2]
      simp only [List.cons_append, List.nil_append, utf8DecodeChar]
      rw [if_neg (by omega), if_pos (by omega)]
      simp only [utf8Decode2]
      have harg : (192 + c.toNat / 64 - 192) * 64 + (128 + c.toNat % 64 - 128) = c.toNat := by
        omega
      rw [harg]
      exact hself [192 + c.toNat / 64, 128 + c.toNat % 64]
        (by unfold utf8EncodeChar; rw [if_neg h1, if_pos h2])
    · by_cases h3 : c.toNat < 65536
      · rw [if_neg h1, if_neg h2, if_pos h3]
        simp only [List.cons_append, List.nil_append, utf8DecodeChar]
        rw [if_neg (by omega), if_neg (by omega), if_pos (by omega)]
        simp only [utf8Decode3]
        have harg : (224 + c.toNat / 4096 - 224) * 4096 + (128 + c.toNat / 64 % 64 - 128) * 64 +
            (128 + c.toNat % 64 - 128) = c.toNat := by omega
        rw [harg]
        exact hself [224 + c.toNat / 4096, 128 + c.toNat / 64 % 64, 128 + c.toNat % 64]
          (by unfold utf8EncodeChar; rw [if_neg h1, if_neg h2, if_pos h3])
      · rw [if_neg h1, if_neg h2, if_neg h3]
        simp only [List.cons_append, List.nil_append, utf8DecodeChar]
        rw [if_neg (by omega), if_neg (by omega), if_neg (by omega)]
        simp only [utf8Decode4]
        have harg : (240 + c.toNat / 262144 - 240) * 262144 +
            (128 + c.toNat / 4096 % 64 - 128) * 4096 +
            (128 + c.toNat / 64 % 64 - 128) * 64 + (128 + c.toNat % 64 - 128) = c.toNat := by
          omega
        rw [harg]
        exact hself [240 + c.toNat / 262144, 128 + c.toNat / 4096 % 64, 128 + c.toNat / 64 % 64,
            128 + c.toNat % 64]
          (by unfold utf8EncodeChar; rw [if_neg h1, if_neg h2, if_neg h3])

theorem utf8Decode_step (input : List Nat) (c : Char) (rest : List Nat)
    (h : utf8DecodeChar input = some (c, rest)) :
    utf8Decode input = (utf8Decode rest).map (fun cs => c :: cs) := by
  conv_lhs => unfold utf8Decode
  split
  · case _ c2 rest2 hm =>
    rw [h] at hm
    simp only [Option.some.injEq, Prod.mk.injEq] at hm
    rw [hm.1, hm.2]
  · case _ hm =>
    rw [h] at hm
    cases hm

theorem utf8Decode_nil : utf8Decode [] = some [] := by
  conv_lhs => unfold utf8Decode
  rfl

theorem utf8Decode_encode (s : List Char) : utf8Decode (utf8Encode s) = some s := by
  induction s with
  | nil => exact utf8Decode_nil
  | cons c rest ih =>
    have hsplit : utf8Encode (c :: rest) = utf8EncodeChar c ++ utf8Encode rest := by
      simp [utf8Encode]
    rw [hsplit, utf8Decode_step _ c (utf8Encode rest) (utf8DecodeChar_encode c _), ih]
    rfl

/-!
Lemmas: the Shift-JIS fallback loop equals per-character encoding.
-/

/-- Per-character output of the best-effort encoder: the mapping when the
character is mappable, the space fallback otherwise. -/
def sjisCharBytes (m : Char → Option (List Nat)) (c : Char) : List Nat :=
  match m c with
  | some bs => bs
  | none => sjisSpaces c

theorem sjisEncodeCall_none (m : Char → Option (List Nat)) (s : List Char) (bs : List Nat)
    (rem : List Char) (h : sjisEncodeCall m s = (bs, none, rem)) :
    bs = (s.map (sjisCharBytes m)).flatten := by
  induction s generalizing bs rem with
  | nil =>
    simp only [sjisEncodeCall, Prod.mk.injEq] at h
    simp [h.1]
  | cons c0 rest ih =>
    simp only [sjisEncodeCall] at h
    match hm : m c0 with
    | none => rw [hm] at h; simp at h
    | some bs0 =>
      rw [hm] at h
      simp only [Prod.mk.injEq] at h
      obtain ⟨hbs, hnone, hrem⟩ := h
      have hcall : sjisEncodeCall m rest = ((sjisEncodeCall m rest).1, none, rem) := by
        rw [← hnone, ← hrem]
      have := ih _ _ hcall
      simp only [List.map_cons, List.flatten_cons, ← hbs, this, sjisCharBytes, hm]

theorem sjisEncodeCall_some (m : Char → Option (List Nat)) (s : List Char) (bs : List Nat)
    (c : Char) (rem : List Char) (h : sjisEncodeCall m s = (bs, some c, rem)) :
    (s.map (sjisCharBytes m)).flatten =
      bs ++ sjisSpaces c ++ (rem.map (sjisCharBytes m)).flatten := by
  induction s generalizing bs rem with
  | nil => simp [sjisEncodeCall] at h
  | cons c0 rest ih =>
    simp only [sjisEncodeCall] at h
    match hm : m c0 with
    | none =>
      rw [hm] at h
      simp only [Prod.mk.injEq] at h
      obtain ⟨hbs, hc, hrem⟩ := h
      injection hc with hceq
      subst hceq
      subst hrem
      simp only [List.map_cons, List.flatten_cons, ← hbs, sjisCharBytes, hm]
      simp
    | some bs0 =>
      rw [hm] at h
      simp only [Prod.mk.injEq] at h
      obtain ⟨hbs, hc, hrem⟩ := h
      have hcall : sjisEncodeCall m rest = ((sjisEncodeCall m rest).1, some c, rem) := by
        rw [← hc, ← hrem]
      have := ih _ _ hcall
      simp only [List.map_cons, List.flatten_cons, ← hbs, this, sjisCharBytes, hm,
        List.append_assoc]

theorem encode_sjis_eq_aux (m : Char → Option (List Nat)) (n : Nat) :
    ∀ s : List Char, s.length ≤ n → encode_sjis m s = (s.map (sjisCharBytes m)).flatten := by
  induction n with
  | zero =>
    intro s hs
    have hnil : s = [] := List.eq_nil_of_length_eq_zero (Nat.le_zero.mp hs)
    subst hnil
    conv_lhs => unfold encode_sjis
    split
    · rename_i bs rem heq
      exact sjisEncodeCall_none m [] bs rem heq
    · rename_i bs c rem heq
      simp [sjisEncodeCall] at heq
  | succ k ih =>
    intro s hs
    conv_lhs => unfold encode_sjis
    split
    · rename_i bs rem heq
      exact sjisEncodeCall_none m s bs rem heq
    · rename_i bs c rem heq
      have hrem : rem.length < s.length := by
        have h1 : (sjisEncodeCall m s).2.1 = some c := by rw [heq]
        have h2 := sjisEncodeCall_rem_shrinks m s c h1
        rw [heq] at h2
        exact h2
      rw [ih rem (by omega)]
      rw [sjisEncodeCall_some m s bs c rem heq]

theorem encode_sjis_eq (m : Char → Option (List Nat)) (s : List Char) :
    encode_sjis m s = (s.map (sjisCharBytes m)).flatten :=
  encode_sjis_eq_aux m s.length s (Nat.le_refl _)

theorem sjisCharBytes_le (m : Char → Option (List Nat))
    (hm : ∀ c bs, m c = some bs → bs.length ≤ 2) (c : Char) :
    (sjisCharBytes m c).length ≤ 2 := by
  unfold sjisCharBytes
  cases hmc : m c with
  | none =>
    simp only [hmc]
    unfold sjisSpaces
    split <;> simp
  | some bs =>
    simp only [hmc]
    exact hm c bs hmc

theorem weightedCount_eq_sum (s : List Char) :
    weightedCount s = (s.map (fun c => if lenUtf8 c = 4 then 2 else 1)).sum := by
  unfold weightedCount
  have haux : ∀ (l : List Char) (a : Nat),
      l.foldl (fun cn c => cn + (if lenUtf8 c = 4 then 2 else 1)) a =
        a + (l.map (fun c => if lenUtf8 c = 4 then 2 else 1)).sum := by
    intro l
    induction l with
    | nil => intro a; simp
    | cons c rest ih =>
      intro a
      simp only [List.foldl_cons, List.map_cons, List.sum_cons, ih]
      omega
  rw [haux]
  omega

theorem length_le_weightedCount (s : List Char) : s.length ≤ weightedCount s := by
  rw [weightedCount_eq_sum]
  induction s with
  | nil => simp
  | cons c rest ih =>
    simp only [List.map_cons, List.sum_cons, List.length_cons]
    have : (1 : Nat) ≤ if lenUtf8 c = 4 then 2 else 1 := by split <;> omega
    omega

theorem encode_sjis_length_le (m : Char → Option (List Nat))
    (hm : ∀ c bs, m c = some bs → bs.length ≤ 2) (s : List Char) :
    (encode_sjis m s).length ≤ 2 * s.length := by
  rw [encode_sjis_eq, List.length_flatten]
  have hb : ∀ x ∈ (s.map (sjisCharBytes m)).map List.length, x ≤ 2 := by
    intro x hx
    rcases List.mem_map.mp hx with ⟨bs, hbs, rfl⟩
    rcases List.mem_map.mp hbs with ⟨c, _, rfl⟩
    exact sjisCharBytes_le m hm c
  calc ((s.map (sjisCharBytes m)).map List.length).sum
      ≤ ((s.map (sjisCharBytes m)).map List.length).length • 2 :=
        List.sum_le_card_nsmul _ 2 hb
    _ = 2 * s.length := by simp [Nat.smul_one_eq_cast]; omega

/-!
Lemmas: component round trips.
-/

theorem le_u16_u16le_small (n : Nat) (rest : List Nat) (h : n < 65536) :
    le_u16 (u16le n ++ rest) = .ok (rest, n) := by
  rw [le_u16_u16le, Nat.mod_eq_of_lt h]

theorem le_u32_u32le_small (n : Nat) (rest : List Nat) (h : n < 4294967296) :
    le_u32 (u32le n ++ rest) = .ok (rest, n) := by
  rw [le_u32_u32le, Nat.mod_eq_of_lt h]

theorem colorname_wf_fields (cn : ColorName) (h : cn.wf = true) :
    cn.bytes_len_utf16 = utf16Count cn.val * 2 ∧ utf16Count cn.val * 2 ≤ 128 := by
  unfold ColorName.wf at h
  simp only [Bool.and_eq_true, beq_iff_eq] at h
  exact ⟨h.1, by have := h.2; simpa [Nat.ble_eq] using this⟩

theorem bytes_color_name_roundtrip (cn : ColorName) (h : cn.wf = true) (rest : List Nat) :
    bytes_color_name (cn.extend_bytes ++ rest) = .ok (rest, cn) := by
  obtain ⟨hfield, hle⟩ := colorname_wf_fields cn h
  unfold ColorName.extend_bytes bytes_color_name
  rw [List.append_assoc]
  simp only [le_u16_u16le_small cn.bytes_len_utf16 (utf16LeBytes cn.val ++ rest) (by omega),
    takeBytes_exact cn.bytes_len_utf16 (utf16LeBytes cn.val) rest
      (by rw [utf16LeBytes_length]; omega),
    bytesToU16s_utf16LeBytes, utf16DecodeUnits_encode]
  unfold ColorName.set_str
  rw [if_neg (by omega)]
  simp only [Except.ok.injEq, Prod.mk.injEq, true_and]
  rw [← hfield]

theorem bytes_color_extend (c : Color) (rest : List Nat) :
    bytes_color (c.extend_bytes ++ rest) = .ok (rest, c.normalize) := by
  obtain ⟨r, g, b, t⟩ := c
  unfold Color.extend_bytes Color.normalize
  cases t
  · simp [bytes_color, le_u8, Color.new]
  · simp [bytes_color, le_u8, Color.new]

theorem colorsegment_extend_length_pos (cs : ColorSegment) : 0 < cs.extend_bytes.length := by
  unfold ColorSegment.extend_bytes
  simp [u32le]

theorem bytes_color_segment_extend (cs : ColorSegment) (h : cs.wf = true) (rest : List Nat) :
    bytes_color_segment (cs.extend_bytes ++ rest) = .ok (rest, cs.normalize) := by
  obtain ⟨c, name⟩ := cs
  unfold ColorSegment.wf at h
  unfold ColorSegment.extend_bytes bytes_color_segment ColorSegment.normalize
  simp only at h ⊢
  cases name with
  | none =>
    simp only [List.append_assoc, le_u32_u32le]
    simp only [bytes_color_extend]
    rw [le_u32_u32le_small 0 rest (by norm_num)]
    simp
  | some cn =>
    simp only [List.append_assoc, le_u32_u32le]
    simp only [bytes_color_extend]
    rw [le_u32_u32le_small 1 _ (by norm_num)]
    simp only [bytes_color_name_roundtrip cn h rest]
    simp

theorem many0_stop (input : List Nat) (e : PErr)
    (h : bytes_color_segment input = .error e) (hf : e.isFailure = false) :
    many0ColorSegments input = .ok (input, []) := by
  conv_lhs => unfold many0ColorSegments
  split
  · rename_i e2 heq
    rw [h] at heq
    injection heq with he
    rw [← he, hf]
    simp
  · rename_i r s heq
    rw [h] at heq
    cases heq

theorem many0_fail (input : List Nat) (e : PErr)
    (h : bytes_color_segment input = .error e) (hf : e.isFailure = true) :
    many0ColorSegments input = .error e := by
  conv_lhs => unfold many0ColorSegments
  split
  · rename_i e2 heq
    rw [h] at heq
    injection heq with he
    rw [← he, hf]
    simp
  · rename_i r s heq
    rw [h] at heq
    cases heq

theorem many0_cons (input rest : List Nat) (seg : ColorSegment)
    (h : bytes_color_segment input = .ok (rest, seg)) (hlt : rest.length < input.length) :
    many0ColorSegments input =
      match many0ColorSegments rest with
      | .error e => .error e
      | .ok (rest2, segs) => .ok (rest2, seg :: segs) := by
  conv_lhs => unfold many0ColorSegments
  split
  · rename_i e2 heq
    rw [h] at heq
    cases heq
  · rename_i r s heq
    rw [h] at heq
    injection heq with hp
    simp only [Prod.mk.injEq] at hp
    obtain ⟨hr, hseg⟩ := hp
    subst hr
    subst hseg
    rw [dif_pos hlt]

theorem many0_extend_list (segs : List ColorSegment) (h : segs.all ColorSegment.wf = true) :
    many0ColorSegments ((segs.map ColorSegment.extend_bytes).flatten) =
      .ok ([], segs.map ColorSegment.normalize) := by
  induction segs with
  | nil =>
    have hstep : bytes_color_segment [] = .error PErr.incomplete := rfl
    rw [show ((List.map ColorSegment.extend_bytes []).flatten) = [] from rfl]
    rw [many0_stop [] PErr.incomplete hstep rfl]
    rfl
  | cons s rest ih =>
    simp only [List.all_cons, Bool.and_eq_true] at h
    simp only [List.map_cons, List.flatten_cons]
    rw [many0_cons _ ((rest.map ColorSegment.extend_bytes).flatten) (s.normalize)
      (bytes_color_segment_extend s h.1 _)
      (by
        rw [List.length_append]
        have := colorsegment_extend_length_pos s
        omega)]
    rw [ih h.2]

theorem bytes_color_segments_extend (s : ColorSegments)
    (hwf : s.val.all ColorSegment.wf = true) (hne : s.val ≠ []) :
    bytes_color_segments s.extend_bytes =
      .ok ([], { val := s.val.map ColorSegment.normalize }) := by
  unfold ColorSegments.extend_bytes bytes_color_segments
  simp only [List.append_assoc, le_u32_u32le]
  simp only [many0_extend_list s.val hwf]
  rw [if_neg (by
    simp only [List.isEmpty_iff, List.map_eq_nil_iff]
    exact hne)]
  rw [if_neg (by
    simp only [List.length_map, U32MOD]
    omega)]

theorem colorsetname_wf_fields (n : ColorsetName) (h : n.wf = true) :
    utf8Len n.val ≤ 192 ∧ weightedCount n.val ≤ 64 := by
  unfold ColorsetName.wf at h
  simp only [Bool.and_eq_true, Nat.ble_eq] at h
  exact h

theorem bytes_colorset_name_roundtrip (m : Char → Option (List Nat))
    (hm : ∀ c bs, m c = some bs → bs.length ≤ 2) (n : ColorsetName) (h : n.wf = true)
    (rest : List Nat) :
    bytes_colorset_name (ColorsetName.extend_bytes m n ++ rest) = .ok (rest, n) := by
  obtain ⟨h192, h64⟩ := colorsetname_wf_fields n h
  have hchars : n.val.length ≤ 64 := Nat.le_trans (length_le_weightedCount n.val) h64
  have hsjis : (encode_sjis m n.val).length ≤ 128 := by
    have := encode_sjis_length_le m hm n.val
    omega
  unfold ColorsetName.extend_bytes bytes_colorset_name
  simp only [U16MOD]
  rw [Nat.mod_eq_of_lt (show (encode_sjis m n.val).length < 65536 by omega),
    Nat.mod_eq_of_lt (show utf8Len n.val < 65536 by omega)]
  simp only [List.append_assoc, le_u32_u32le,
    le_u16_u16le_small (encode_sjis m n.val).length
      (encode_sjis m n.val ++ (u32le 0 ++ (u16le (utf8Len n.val) ++ (utf8Encode n.val ++ rest))))
      (by omega),
    takeBytes_exact (encode_sjis m n.val).length (encode_sjis m n.val)
      (u32le 0 ++ (u16le (utf8Len n.val) ++ (utf8Encode n.val ++ rest))) rfl,
    le_u16_u16le_small (utf8Len n.val) (utf8Encode n.val ++ rest) (by omega),
    takeBytes_exact (utf8Len n.val) (utf8Encode n.val) rest (utf8Encode_length n.val),
    utf8Decode_encode]
  unfold ColorsetName.set_str
  rw [if_neg (by omega), if_neg (by omega)]

/-!
Lemmas: sizes versus emitted byte counts.
-/

theorem u16le_length (n : Nat) : (u16le n).length = 2 := rfl

theorem u32le_length (n : Nat) : (u32le n).length = 4 := rfl

theorem color_extend_length (c : Color) : c.extend_bytes.length = 4 := by
  unfold Color.extend_bytes
  split <;> rfl

theorem colorname_extend_length (cn : ColorName) :
    cn.extend_bytes.length = 2 + utf16Count cn.val * 2 := by
  unfold ColorName.extend_bytes
  rw [List.length_append, u16le_length, utf16LeBytes_length]

theorem colorsegment_extend_length (cs : ColorSegment) (h : cs.wf = true) :
    cs.extend_bytes.length = cs.size_in_cls := by
  obtain ⟨c, name⟩ := cs
  unfold ColorSegment.wf at h
  unfold ColorSegment.extend_bytes ColorSegment.size_in_cls ColorSegment.size_contents_in_cls
    Color.size_in_cls ColorName.size_in_cls ColorName.size_contents_in_cls
  simp only at h ⊢
  cases name with
  | none =>
    simp only [List.length_append, u32le_length, color_extend_length]
  | some cn =>
    obtain ⟨hfield, _⟩ := colorname_wf_fields cn h
    simp only [List.length_append, u32le_length, color_extend_length, colorname_extend_length]
    omega

theorem colorsegments_extend_length (s : ColorSegments) :
    s.extend_bytes.length = 8 + ((s.val.map (fun cs => cs.extend_bytes.length)).sum) := by
  unfold ColorSegments.extend_bytes
  simp only [List.length_append, u32le_length, List.length_flatten, List.map_map]
  have : (List.length ∘ ColorSegment.extend_bytes) = fun cs => cs.extend_bytes.length := rfl
  rw [this]

theorem fold_mod_sum (l : List Nat) :
    l.foldl (fun acc x => (acc + x) % U32MOD) 0 = l.sum % U32MOD := by
  have haux : ∀ (xs : List Nat) (a : Nat), a < U32MOD →
      xs.foldl (fun acc x => (acc + x) % U32MOD) a = (a + xs.sum) % U32MOD := by
    intro xs
    induction xs with
    | nil =>
      intro a ha
      simp [Nat.mod_eq_of_lt ha]
    | cons x rest ih =>
      intro a ha
      simp only [List.foldl_cons, List.sum_cons]
      rw [ih ((a + x) % U32MOD) (Nat.mod_lt _ (by unfold U32MOD; omega))]
      rw [Nat.mod_add_mod]
      congr 1
      omega
  rw [haux l 0 (by unfold U32MOD; omega)]
  simp

theorem colorsegments_size_contents_eq (s : ColorSegments) :
    s.size_contents_in_cls = (s.val.map ColorSegment.size_in_cls).sum % U32MOD := by
  unfold ColorSegments.size_contents_in_cls
  rw [← fold_mod_sum]
  rw [List.foldl_map]

theorem colorsetname_extend_length (m : Char → Option (List Nat)) (n : ColorsetName) :
    (ColorsetName.extend_bytes m n).length =
      12 + (encode_sjis m n.val).length + utf8Len n.val := by
  unfold ColorsetName.extend_bytes
  simp only [List.length_append, u32le_length, u16le_length, utf8Encode_length]
  omega

theorem colorset_size_accounting (m : Char → Option (List Nat)) (c : Colorset)
    (hwf : c.wf = true) :
    (c.as_bytes m).length % U32MOD = c.size_contents_in_cls m := by
  unfold Colorset.wf at hwf
  simp only [Bool.and_eq_true] at hwf
  have hsegmap : c.color_segments.val.map (fun cs => cs.extend_bytes.length) =
      c.color_segments.val.map ColorSegment.size_in_cls := by
    apply List.map_congr_left
    intro cs hcs
    exact colorsegment_extend_length cs (by
      have := hwf.2
      rw [List.all_eq_true] at this
      exact this cs hcs)
  have hlen : (c.as_bytes m).length =
      6 + (12 + (encode_sjis m c.name.val).length + utf8Len c.name.val) + 4 +
        (8 + (c.color_segments.val.map ColorSegment.size_in_cls).sum) := by
    unfold Colorset.as_bytes Colorset.extend_bytes
    simp only [List.length_append, colorsetname_extend_length, colorsegments_extend_length,
      u32le_length]
    rw [hsegmap]
    simp [CLS_HEADER]
  rw [hlen]
  unfold Colorset.size_contents_in_cls ColorsetName.size_in_cls
    ColorsetName.size_contents_in_cls ColorSegments.size_in_cls
  rw [colorsegments_size_contents_eq]
  unfold U32MOD
  omega

/-!
Lemmas: the segment-list parser as a function of the fold result, and
size arithmetic on a replicated segment list.
-/

theorem bytes_color_segments_unfold (n s : Nat) (rest : List Nat) (hn : n < 4294967296) :
    bytes_color_segments (u32le n ++ (u32le s ++ rest)) =
      match many0ColorSegments rest with
      | .error e => .error e
      | .ok (rest2, segs) =>
        if segs = [] then .error PErr.emptySegmentList
        else if segs.length % 4294967296 ≠ n then .error PErr.segmentCountMismatch
        else .ok (rest2, { val := segs }) := by
  unfold bytes_color_segments
  simp only [le_u32_u32le_small n (u32le s ++ rest) hn, le_u32_u32le]
  cases hres : many0ColorSegments rest with
  | error e => rfl
  | ok p =>
    obtain ⟨rest2, segs⟩ := p
    cases segs with
    | nil => rfl
    | cons a tl =>
      simp only [List.isEmpty_cons, Bool.false_eq_true, if_false, List.cons_ne_nil, U32MOD]

/-!
Lemmas: the address-aware parsers. At an even address the alignment check
of the bytemuck cast always passes, so the address-aware parsers coincide
with the plain ones there; a segment encoding occupies an even number of
bytes, so the record addresses of the fold all share the parity of the
first one.
-/

theorem tryCastSliceU16_even (addr : Nat) (h : addr % 2 = 0) (bytes : List Nat) :
    tryCastSliceU16 addr bytes = bytesToU16s bytes := by
  unfold tryCastSliceU16
  rw [if_pos h]

theorem bytes_color_nameAt_even (addr : Nat) (h : addr % 2 = 0) (input : List Nat) :
    bytes_color_nameAt addr input = bytes_color_name input := by
  unfold bytes_color_nameAt bytes_color_name
  simp only [tryCastSliceU16_even (addr + 2) (by omega)]

theorem bytes_color_segmentAt_even (addr : Nat) (h : addr % 2 = 0) (input : List Nat) :
    bytes_color_segmentAt addr input = bytes_color_segment input := by
  unfold bytes_color_segmentAt bytes_color_segment
  simp only [bytes_color_nameAt_even (addr + 12) (by omega)]

theorem colorsegment_extend_even (cs : ColorSegment) : cs.extend_bytes.length % 2 = 0 := by
  obtain ⟨c, name⟩ := cs
  unfold ColorSegment.extend_bytes
  simp only
  cases name with
  | none =>
    simp only [List.length_append, u32le_length, color_extend_length]
  | some cn =>
    simp only [List.length_append, u32le_length, color_extend_length, colorname_extend_length]
    omega

theorem bytes_color_segmentAt_extend_unnamed (addr : Nat) (cs : ColorSegment)
    (hn : cs.color_name = none) (rest : List Nat) :
    bytes_color_segmentAt addr (cs.extend_bytes ++ rest) = .ok (rest, cs.normalize) := by
  obtain ⟨c, name⟩ := cs
  simp only at hn
  subst hn
  unfold ColorSegment.extend_bytes bytes_color_segmentAt ColorSegment.normalize
  simp only [List.append_assoc, le_u32_u32le]
  simp only [bytes_color_extend]
  rw [le_u32_u32le_small 0 rest (by norm_num)]
  simp

theorem many0At_stop (addr : Nat) (input : List Nat) (e : PErr)
    (h : bytes_color_segmentAt addr input = .error e) (hf : e.isFailure = false) :
    many0ColorSegmentsAt addr input = .ok (input, []) := by
  conv_lhs => unfold many0ColorSegmentsAt
  split
  · rename_i e2 heq
    rw [h] at heq
    injection heq with he
    rw [← he, hf]
    simp
  · rename_i r s heq
    rw [h] at heq
    cases heq

theorem many0At_fail (addr : Nat) (input : List Nat) (e : PErr)
    (h : bytes_color_segmentAt addr input = .error e) (hf : e.isFailure = true) :
    many0ColorSegmentsAt addr input = .error e := by
  conv_lhs => unfold many0ColorSegmentsAt
  split
  · rename_i e2 heq
    rw [h] at heq
    injection heq with he
    rw [← he, hf]
    simp
  · rename_i r s heq
    rw [h] at heq
    cases heq

theorem many0At_cons (addr : Nat) (input rest : List Nat) (seg : ColorSegment)
    (h : bytes_color_segmentAt addr input = .ok (rest, seg)) (hlt : rest.length < input.length) :
    many0ColorSegmentsAt addr input =
      match many0ColorSegmentsAt (addr + (input.length - rest.length)) rest with
      | .error e => .error e
      | .ok (rest2, segs) => .ok (rest2, seg :: segs) := by
  conv_lhs => unfold many0ColorSegmentsAt
  split
  · rename_i e2 heq
    rw [h] at heq
    cases heq
  · rename_i r s heq
    rw [h] at heq
    injection heq with hp
    simp only [Prod.mk.injEq] at hp
    obtain ⟨hr, hseg⟩ := hp
    subst hr
    subst hseg
    rw [dif_pos hlt]

theorem many0At_extend_list (segs : List ColorSegment) (h : segs.all ColorSegment.wf = true)
    (addr : Nat) (hcond : addr % 2 = 0 ∨ ∀ s ∈ segs, s.color_name = none) :
    many0ColorSegmentsAt addr ((segs.map ColorSegment.extend_bytes).flatten) =
      .ok ([], segs.map ColorSegment.normalize) := by
  induction segs generalizing addr with
  | nil =>
    have hstep : bytes_color_segmentAt addr [] = .error PErr.incomplete := rfl
    rw [show ((List.map ColorSegment.extend_bytes []).flatten) = [] from rfl]
    rw [many0At_stop addr [] PErr.incomplete hstep rfl]
    rfl
  | cons s rest ih =>
    simp only [List.all_cons, Bool.and_eq_true] at h
    simp only [List.map_cons, List.flatten_cons]
    have hstep : bytes_color_segmentAt addr
        (s.extend_bytes ++ (rest.map ColorSegment.extend_bytes).flatten) =
        .ok ((rest.map ColorSegment.extend_bytes).flatten, s.normalize) := by
      rcases hcond with he | hun
      · rw [bytes_color_segmentAt_even addr he]
        exact bytes_color_segment_extend s h.1 _
      · exact bytes_color_segmentAt_extend_unnamed addr s (hun s (List.mem_cons_self s rest)) _
    rw [many0At_cons addr _ ((rest.map ColorSegment.extend_bytes).flatten) (s.normalize) hstep
      (by
        rw [List.length_append]
        have := colorsegment_extend_length_pos s
        omega)]
    have hlen : (s.extend_bytes ++ (rest.map ColorSegment.extend_bytes).flatten).length -
        ((rest.map ColorSegment.extend_bytes).flatten).length = s.extend_bytes.length := by
      rw [List.length_append]
      omega
    rw [hlen]
    rw [ih h.2 (addr + s.extend_bytes.length) (by
      rcases hcond with he | hun
      · left
        have := colorsegment_extend_even s
        omega
      · right
        intro x hx
        exact hun x (List.mem_cons_of_mem s hx))]

theorem bytes_color_segmentsAt_extend (s : ColorSegments)
    (hwf : s.val.all ColorSegment.wf = true) (hne : s.val ≠ []) (addr : Nat)
    (hcond : addr % 2 = 0 ∨ ∀ cs ∈ s.val, cs.color_name = none) :
    bytes_color_segmentsAt addr s.extend_bytes =
      .ok ([], { val := s.val.map ColorSegment.normalize }) := by
  have hc : (addr + 8) % 2 = 0 ∨ ∀ cs ∈ s.val, cs.color_name = none := by
    rcases hcond with he | hun
    · left
      omega
    · right
      exact hun
  unfold ColorSegments.extend_bytes bytes_color_segmentsAt
  simp only [List.append_assoc, le_u32_u32le]
  simp only [many0At_extend_list s.val hwf (addr + 8) hc]
  rw [if_neg (by
    simp only [List.isEmpty_iff, List.map_eq_nil_iff]
    exact hne)]
  rw [if_neg (by
    simp only [List.length_map, U32MOD]
    omega)]

theorem bytes_color_segmentsAt_unfold (addr n s : Nat) (rest : List Nat) (hn : n < 4294967296) :
    bytes_color_segmentsAt addr (u32le n ++ (u32le s ++ rest)) =
      match many0ColorSegmentsAt (addr + 8) rest with
      | .error e => .error e
      | .ok (rest2, segs) =>
        if segs = [] then .error PErr.emptySegmentList
        else if segs.length % 4294967296 ≠ n then .error PErr.segmentCountMismatch
        else .ok (rest2, { val := segs }) := by
  unfold bytes_color_segmentsAt
  simp only [le_u32_u32le_small n (u32le s ++ rest) hn, le_u32_u32le]
  cases hres : many0ColorSegmentsAt (addr + 8) rest with
  | error e => rfl
  | ok p =>
    obtain ⟨rest2, segs⟩ := p
    cases segs with
    | nil => rfl
    | cons a tl =>
      simp only [List.isEmpty_cons, Bool.false_eq_true, if_false, List.cons_ne_nil, U32MOD]

theorem bytes_colorset_roundtrip_aux (m : Char → Option (List Nat))
    (hm : ∀ c bs, m c = some bs → bs.length ≤ 2) (base : Nat) (hbase : base % 2 = 0)
    (c : Colorset) (hwf : c.wf = true) (hne : c.color_segments.val ≠ [])
    (halign : ((encode_sjis m c.name.val).length + utf8Len c.name.val) % 2 = 0 ∨
      ∀ cs ∈ c.color_segments.val, cs.color_name = none) :
    bytes_colorset base (c.as_bytes m) = .ok ([], c.normalize) := by
  unfold Colorset.wf at hwf
  simp only [Bool.and_eq_true] at hwf
  unfold Colorset.as_bytes Colorset.extend_bytes bytes_colorset
  simp only [List.append_assoc]
  rw [takeBytes_exact 6 CLS_HEADER _ rfl]
  simp only [bytes_colorset_name_roundtrip m hm c.name hwf.1]
  simp only [le_u32_u32le]
  have hdiff : (CLS_HEADER ++ (ColorsetName.extend_bytes m c.name ++
      (u32le 4 ++ ColorSegments.extend_bytes c.color_segments))).length -
      (ColorSegments.extend_bytes c.color_segments).length =
      22 + ((encode_sjis m c.name.val).length + utf8Len c.name.val) := by
    simp only [List.length_append, colorsetname_extend_length, u32le_length]
    have hh : CLS_HEADER.length = 6 := rfl
    rw [hh]
    omega
  rw [hdiff]
  rw [bytes_color_segmentsAt_extend c.color_segments hwf.2 hne
    (base + (22 + ((encode_sjis m c.name.val).length + utf8Len c.name.val)))
    (by
      rcases halign with he | hun
      · left
        omega
      · right
        exact hun)]
  unfold Colorset.normalize
  rfl

theorem colorset_wf_expand (nm : ColorsetName) (segs : ColorSegments) :
    Colorset.wf { name := nm, color_segments := segs } =
      (nm.wf && segs.val.all ColorSegment.wf) := rfl

theorem colorset_as_bytes_expand (m : Char → Option (List Nat)) (nm : ColorsetName)
    (segs : ColorSegments) :
    Colorset.as_bytes m { name := nm, color_segments := segs } =
      CLS_HEADER ++ ColorsetName.extend_bytes m nm ++ u32le 4 ++ segs.extend_bytes := rfl

theorem colorset_size_contents_expand (m : Char → Option (List Nat)) (nm : ColorsetName)
    (segs : ColorSegments) :
    Colorset.size_contents_in_cls m { name := nm, color_segments := segs } =
      (6 + nm.size_in_cls m + 4 + segs.size_in_cls) % U32MOD := rfl

theorem colorsegments_size_expand (l : List ColorSegment) :
    ColorSegments.size_in_cls { val := l } =
      (4 + 4 + ColorSegments.size_contents_in_cls { val := l }) % U32MOD := rfl

/-- The default transparent segment with no name, used to build a large
segment list. -/
def bareSeg : ColorSegment := ColorSegment.new (Color.new 0 0 0 true) none

theorem bareSeg_extend_length : bareSeg.extend_bytes.length = 12 := rfl

theorem bareSeg_size : bareSeg.size_in_cls = 12 := rfl

theorem replicate_segments_extend_length (k : Nat) :
    (ColorSegments.extend_bytes { val := List.replicate k bareSeg }).length = 8 + 12 * k := by
  rw [colorsegments_extend_length]
  simp only [List.map_replicate, bareSeg_extend_length, List.sum_replicate, smul_eq_mul]
  omega

theorem replicate_segments_size_contents (k : Nat) :
    (ColorSegments.size_contents_in_cls { val := List.replicate k bareSeg }) =
      (12 * k) % U32MOD := by
  rw [colorsegments_size_contents_eq]
  simp only [List.map_replicate, bareSeg_size, List.sum_replicate, smul_eq_mul]
  congr 1
  omega

/-!
Remaining shared helpers for the claim theorems.
-/

theorem asciiSjis_bounded : ∀ (c : Char) (bs : List Nat), asciiSjis c = some bs → bs.length ≤ 2 := by
  intro c bs h
  unfold asciiSjis at h
  split at h
  · injection h with hb
    rw [← hb]
    simp
  · cases h

theorem colorname_set_str_eq (cn : ColorName) (s : List Char) :
    ColorName.set_str cn s =
      if utf16Count s * 2 ≤ 128 then
        ({ val := s, bytes_len_utf16 := utf16Count s * 2 }, none)
      else (cn, some ColorNameError.EncodedStringOver128Bytes) := by
  unfold ColorName.set_str
  by_cases h : utf16Count s * 2 ≤ 128
  · rw [if_neg (by omega), if_pos h]
  · rw [if_pos (by omega), if_neg h]

theorem colorsetname_set_str_eq (n : ColorsetName) (s : List Char) :
    ColorsetName.set_str n s =
      if utf8Len s ≤ 192 ∧ weightedCount s ≤ 64 then ({ val := s }, none)
      else (n, some (if utf8Len s ≤ 192 then ColorsetNameError.CharCountExceeded64
                     else ColorsetNameError.StringOver192Bytes)) := by
  unfold ColorsetName.set_str
  by_cases h1 : utf8Len s ≤ 192
  · by_cases h2 : weightedCount s ≤ 64
    · rw [if_neg (by omega), if_neg (by omega), if_pos ⟨h1, h2⟩]
    · rw [if_neg (by omega), if_pos (by omega), if_neg (by tauto), if_pos h1]
  · rw [if_pos (by omega), if_neg (by tauto), if_neg h1]

theorem bytes_color_cons (b0 b1 b2 b3 : Nat) (rest : List Nat) :
    bytes_color (b0 :: b1 :: b2 :: b3 :: rest) =
      .ok (rest, if b3 = 0 then Color.new 0 0 0 true else Color.new b0 b1 b2 false) := by
  simp only [bytes_color, le_u8]
  by_cases hb : b3 = 0 <;> simp [hb]

/-!
Claim theorems.
-/

/-- A Colorset whose segment list has been emptied, reachable through
ColorSegments::remove. -/
def drainedColorset : Colorset :=
  { name := { val := [Char.ofNat 65] }, color_segments := { val := [] } }

/-- asciiSjis extended with U+3042 (Hiragana A), whose Shift-JIS encoding
is the two bytes 0x82 0xA0; it agrees with encoding_rs on all the
characters it maps. -/
def asciiHiraSjis (c : Char) : Option (List Nat) :=
  if c.toNat < 128 then some [c.toNat]
  else if c.toNat = 12354 then some [130, 160]
  else none

theorem asciiHiraSjis_bounded :
    ∀ (c : Char) (bs : List Nat), asciiHiraSjis c = some bs → bs.length ≤ 2 := by
  intro c bs h
  unfold asciiHiraSjis at h
  split at h
  · injection h with hb
    rw [← hb]
    simp
  · split at h
    · injection h with hb
      rw [← hb]
      simp
    · cases h

/-- A transparent black segment carrying the color name A. -/
def oddSeg : ColorSegment :=
  ColorSegment.new (Color.new 0 0 0 true) (some (ColorName.with_str [Char.ofNat 65]).1)

/-- A well-formed Colorset whose name is the single character U+3042:
its Shift-JIS length 2 plus its UTF-8 length 3 is odd, so in a buffer
starting at an even address the UTF-16 bytes of the segment's color name
start at the odd address 49. -/
def oddNameColorset : Colorset :=
  { name := { val := [Char.ofNat 12354] }, color_segments := { val := [oddSeg] } }

theorem oddNameColorset_sjis : encode_sjis asciiHiraSjis [Char.ofNat 12354] = [130, 160] := by
  rw [encode_sjis_eq]
  decide

/-- Claim C1, counterexamples: first, a Colorset whose segment list has
been emptied (reachable through ColorSegments::remove) satisfies every
invariant named by the claim, yet decoding its encoding fails with the
empty-segment-list error; second, a well-formed Colorset with a named
segment whose colorset name U+3042 has odd combined Shift-JIS plus UTF-8
length makes the name bytes of its segment land at an odd address in an
even-based buffer, so decoding fails with the bytemuck cast failure. In
both cases the round trip is an error, not Ok, so the claim as stated is
false at these values. -/
theorem claim_c1_counterexample :
    (Colorset.wf drainedColorset = true ∧
      bytes_colorset 0 (Colorset.as_bytes asciiSjis drainedColorset) =
        .error PErr.emptySegmentList ∧
      Except.error PErr.emptySegmentList ≠
        Except.ok (([] : List Nat), Colorset.normalize drainedColorset)) ∧
    (Colorset.wf oddNameColorset = true ∧ oddNameColorset.color_segments.val ≠ [] ∧
      bytes_colorset 0 (Colorset.as_bytes asciiHiraSjis oddNameColorset) =
        .error PErr.castError ∧
      Except.error PErr.castError ≠
        Except.ok (([] : List Nat), Colorset.normalize oddNameColorset)) := by
  refine ⟨⟨by decide, ?_, by decide⟩, ⟨by decide, by decide, ?_, by decide⟩⟩
  · unfold drainedColorset Colorset.as_bytes Colorset.extend_bytes bytes_colorset
    simp only [List.append_assoc]
    rw [takeBytes_exact 6 CLS_HEADER _ rfl]
    simp only [bytes_colorset_name_roundtrip asciiSjis asciiSjis_bounded
      { val := [Char.ofNat 65] } (by decide), le_u32_u32le]
    have hseg : ColorSegments.extend_bytes { val := ([] : List ColorSegment) } =
        u32le 0 ++ (u32le 0 ++ []) := rfl
    rw [hseg, bytes_color_segmentsAt_unfold _ 0 0 [] (by norm_num)]
    rw [many0At_stop _ [] PErr.incomplete rfl rfl]
    rfl
  · unfold oddNameColorset Colorset.as_bytes Colorset.extend_bytes bytes_colorset
    simp only [List.append_assoc]
    rw [takeBytes_exact 6 CLS_HEADER _ rfl]
    simp only [bytes_colorset_name_roundtrip asciiHiraSjis asciiHiraSjis_bounded
      { val := [Char.ofNat 12354] } (by decide), le_u32_u32le]
    have hdiff : (CLS_HEADER ++ (ColorsetName.extend_bytes asciiHiraSjis
        { val := [Char.ofNat 12354] } ++
        (u32le 4 ++ ColorSegments.extend_bytes { val := [oddSeg] }))).length -
        (ColorSegments.extend_bytes { val := [oddSeg] }).length = 27 := by
      simp only [List.length_append, colorsetname_extend_length, oddNameColorset_sjis]
      have hh : CLS_HEADER.length = 6 := rfl
      have hu : utf8Len [Char.ofNat 12354] = 3 := by decide
      have hb : ([130, 160] : List Nat).length = 2 := rfl
      rw [hh, hu, hb, u32le_length]
      omega
    rw [hdiff]
    have hseg : ColorSegments.extend_bytes { val := [oddSeg] } =
        u32le 1 ++ (u32le 16 ++ (ColorSegment.extend_bytes oddSeg ++ [])) := by decide
    rw [hseg, bytes_color_segmentsAt_unfold _ 1 16 _ (by norm_num)]
    have hrec : bytes_color_segmentAt (0 + 27 + 8) (ColorSegment.extend_bytes oddSeg ++ []) =
        .error PErr.castError := by decide
    rw [many0At_fail _ _ PErr.castError hrec rfl]

/-- Claim C1, amended: for every Colorset built under the data-model
invariants whose segment list is non-empty, and which keeps the bytemuck
cast aligned - either the Shift-JIS byte length plus the UTF-8 byte
length of the colorset name is even, so that in an even-based buffer every
segment name's UTF-16 bytes start at an even address, or no segment
carries a color name - decoding the encoding from a buffer at any even
machine address returns Ok with the whole input consumed, and the value
equals the original except that every transparent color comes back with
its RGB normalized to (0,0,0); the Shift-JIS character table is any map
emitting at most two bytes per character, as Shift-JIS does. -/
theorem claim_c1_roundtrip (m : Char → Option (List Nat))
    (hm : ∀ c bs, m c = some bs → bs.length ≤ 2) (base : Nat) (hbase : base % 2 = 0)
    (c : Colorset) (hwf : c.wf = true) (hne : c.color_segments.val ≠ [])
    (halign : ((encode_sjis m c.name.val).length + utf8Len c.name.val) % 2 = 0 ∨
      ∀ cs ∈ c.color_segments.val, cs.color_name = none) :
    bytes_colorset base (c.as_bytes m) = .ok ([], c.normalize) :=
  bytes_colorset_roundtrip_aux m hm base hbase c hwf hne halign

theorem claim_c1_roundtrip_witness :
    bytes_colorset 0 (Colorset.as_bytes asciiSjis Colorset.new) =
      .ok ([], Colorset.normalize Colorset.new) :=
  claim_c1_roundtrip asciiSjis asciiSjis_bounded 0 rfl Colorset.new (by decide) (by decide)
    (Or.inl (by rw [encode_sjis_eq]; decide))

/-- Claim C2: Color encoding emits exactly 4 bytes, [0,0,0,0] when
transparent regardless of the stored RGB, and [red,green,blue,0xFF]
otherwise; in particular the two examples from the specification. -/
theorem claim_c2 : ∀ c : Color,
    c.extend_bytes = (if c.transparency then [0, 0, 0, 0]
      else [c.red, c.green, c.blue, 255]) ∧
    c.extend_bytes.length = 4 ∧
    (Color.new 1 128 255 false).extend_bytes = [1, 128, 255, 255] ∧
    (Color.new 1 128 255 true).extend_bytes = [0, 0, 0, 0] :=
  fun c => ⟨rfl, color_extend_length c, by decide, by decide⟩

/-- Claim C3: Color decoding reads exactly 4 bytes, returning transparent
black when the 4th byte is 0 and the first three bytes with transparency
false otherwise (the nonzero alpha value is discarded); consequently every
decoded transparent color has RGB (0,0,0). -/
theorem claim_c3 :
    (∀ (b0 b1 b2 b3 : Nat) (rest : List Nat),
      bytes_color (b0 :: b1 :: b2 :: b3 :: rest) =
        .ok (rest, if b3 = 0 then Color.new 0 0 0 true else Color.new b0 b1 b2 false)) ∧
    (∀ (input rest : List Nat) (c : Color), bytes_color input = .ok (rest, c) →
      c.transparency = true → c.red = 0 ∧ c.green = 0 ∧ c.blue = 0) := by
  refine ⟨bytes_color_cons, ?_⟩
  intro input rest c h ht
  match input with
  | [] => simp [bytes_color, le_u8] at h
  | [b0] => simp [bytes_color, le_u8] at h
  | [b0, b1] => simp [bytes_color, le_u8] at h
  | [b0, b1, b2] => simp [bytes_color, le_u8] at h
  | b0 :: b1 :: b2 :: b3 :: tl =>
    rw [bytes_color_cons] at h
    simp only [Except.ok.injEq, Prod.mk.injEq] at h
    by_cases hb : b3 = 0
    · rw [if_pos hb] at h
      rw [← h.2]
      exact ⟨rfl, rfl, rfl⟩
    · rw [if_neg hb] at h
      rw [← h.2] at ht
      cases ht

theorem claim_c3_witness :
    (Color.new 0 0 0 true).red = 0 ∧ (Color.new 0 0 0 true).green = 0 ∧
      (Color.new 0 0 0 true).blue = 0 :=
  claim_c3.2 [9, 9, 9, 0] [] (Color.new 0 0 0 true) (by decide) rfl

/-- Claim C4: ColorName::set_str succeeds exactly when twice the UTF-16
code-unit count is at most 128, storing the string and its UTF-16 byte
length, and on rejection returns the receiver unchanged; a 64-character
ASCII string (128 bytes) is accepted and a 65-character one (130 bytes)
is rejected. -/
theorem claim_c4 : ∀ (cn : ColorName) (s : List Char),
    (ColorName.set_str cn s =
      if utf16Count s * 2 ≤ 128 then
        ({ val := s, bytes_len_utf16 := utf16Count s * 2 }, none)
      else (cn, some ColorNameError.EncodedStringOver128Bytes)) ∧
    ColorName.set_str ColorName.new (List.replicate 64 (Char.ofNat 97)) =
      ({ val := List.replicate 64 (Char.ofNat 97), bytes_len_utf16 := 128 }, none) ∧
    utf16Count (List.replicate 64 (Char.ofNat 97)) * 2 = 128 ∧
    ColorName.set_str cn (List.replicate 65 (Char.ofNat 97)) =
      (cn, some ColorNameError.EncodedStringOver128Bytes) ∧
    utf16Count (List.replicate 65 (Char.ofNat 97)) * 2 = 130 := by
  intro cn s
  refine ⟨colorname_set_str_eq cn s, by decide, by decide, ?_, by decide⟩
  rw [colorname_set_str_eq cn (List.replicate 65 (Char.ofNat 97))]
  rw [if_neg (by decide)]

/-- Claim C5: ColorsetName::set_str succeeds exactly when the UTF-8 byte
length is at most 192 and the weighted character count (4-byte characters
count double) is at most 64, keeping the previous value on failure; 33
copies of U+1F5FF have weighted count 66 and are rejected. -/
theorem claim_c5 : ∀ (n : ColorsetName) (s : List Char),
    (ColorsetName.set_str n s =
      if utf8Len s ≤ 192 ∧ weightedCount s ≤ 64 then ({ val := s }, none)
      else (n, some (if utf8Len s ≤ 192 then ColorsetNameError.CharCountExceeded64
                     else ColorsetNameError.StringOver192Bytes))) ∧
    ColorsetName.set_str n (List.replicate 33 (Char.ofNat 128511)) =
      (n, some ColorsetNameError.CharCountExceeded64) ∧
    weightedCount (List.replicate 33 (Char.ofNat 128511)) = 66 ∧
    utf8Len (List.replicate 33 (Char.ofNat 128511)) = 132 := by
  intro n s
  refine ⟨colorsetname_set_str_eq n s, ?_, by decide, by decide⟩
  rw [colorsetname_set_str_eq n (List.replicate 33 (Char.ofNat 128511))]
  rw [if_neg (by decide), if_pos (by decide)]

/-- Claim C6: for every character-level Shift-JIS map, the best-effort
encoder emits, character by character and in order, the mapping of each
mappable character and, for each unmappable one, two 0x20 bytes when its
UTF-8 form is 4 bytes and one 0x20 byte otherwise; concrete instances:
an unmappable 4-byte character between ASCII letters yields two spaces,
an unmappable 2-byte character yields one. -/
theorem claim_c6 :
    (∀ (m : Char → Option (List Nat)) (s : List Char),
      encode_sjis m s =
        (s.map (fun c =>
          match m c with
          | some bs => bs
          | none => if lenUtf8 c = 4 then [32, 32] else [32])).flatten) ∧
    encode_sjis asciiSjis [Char.ofNat 97, Char.ofNat 128511, Char.ofNat 98] =
      [97, 32, 32, 98] ∧
    encode_sjis asciiSjis [Char.ofNat 97, Char.ofNat 233, Char.ofNat 98] = [97, 32, 98] := by
  have hfun : ∀ m : Char → Option (List Nat),
      (fun c => match m c with
        | some bs => bs
        | none => if lenUtf8 c = 4 then [32, 32] else [32]) = sjisCharBytes m := by
    intro m
    funext c
    unfold sjisCharBytes sjisSpaces
    rfl
  refine ⟨fun m s => by rw [hfun m]; exact encode_sjis_eq m s, ?_, ?_⟩
  · rw [encode_sjis_eq]
    decide
  · rw [encode_sjis_eq]
    decide

/-- Claim C7, counterexample: on a declared count of 1 followed by a
record whose ColorName bytes are a lone UTF-16 surrogate, the parse of
that record raises a nom Err::Failure which the fold propagates, so the
decoder reports the UTF-16 error - neither EmptySegmentList (although zero
segments were produced), nor SegmentCountMismatch, nor success, falsifying
the claimed trichotomy. -/
theorem claim_c7_counterexample :
    bytes_color_segments
        [1, 0, 0, 0, 0, 0, 0, 0, 0, 0, 0, 0, 0, 0, 0, 1, 1, 0, 0, 0, 2, 0, 0, 216] =
      .error PErr.utf16Error ∧
    PErr.utf16Error ≠ PErr.emptySegmentList ∧
    PErr.utf16Error ≠ PErr.segmentCountMismatch := by
  refine ⟨?_, by decide, by decide⟩
  have hseg : bytes_color_segment [0, 0, 0, 0, 0, 0, 0, 1, 1, 0, 0, 0, 2, 0, 0, 216] =
      .error PErr.utf16Error := by decide
  have hmany := many0_fail _ _ hseg rfl
  show bytes_color_segments
      (u32le 1 ++ (u32le 0 ++ [0, 0, 0, 0, 0, 0, 0, 1, 1, 0, 0, 0, 2, 0, 0, 216])) = _
  rw [bytes_color_segments_unfold 1 0 _ (by norm_num), hmany]

/-- Claim C7, amended: the decoder reads the declared count N and a size
field; the size field is ignored (changing it never changes the result);
the records are then folded: a propagated record failure aborts with that
failure, otherwise an empty harvest is EmptySegmentList, a harvest whose
length truncated to u32 differs from N is SegmentCountMismatch, and
anything else succeeds with the harvested list; a zero count with no
records fails with EmptySegmentList. -/
theorem claim_c7 (n s : Nat) (rest : List Nat) (hn : n < 4294967296) :
    (bytes_color_segments (u32le n ++ (u32le s ++ rest)) =
      match many0ColorSegments rest with
      | .error e => .error e
      | .ok (rest2, segs) =>
        if segs = [] then .error PErr.emptySegmentList
        else if segs.length % 4294967296 ≠ n then .error PErr.segmentCountMismatch
        else .ok (rest2, { val := segs })) ∧
    (∀ s2 : Nat, bytes_color_segments (u32le n ++ (u32le s ++ rest)) =
      bytes_color_segments (u32le n ++ (u32le s2 ++ rest))) ∧
    bytes_color_segments (u32le 0 ++ (u32le 0 ++ [])) = .error PErr.emptySegmentList := by
  refine ⟨bytes_color_segments_unfold n s rest hn, ?_, ?_⟩
  · intro s2
    rw [bytes_color_segments_unfold n s rest hn, bytes_color_segments_unfold n s2 rest hn]
  · rw [bytes_color_segments_unfold 0 0 [] (by norm_num)]
    rw [many0_stop [] PErr.incomplete rfl rfl]
    rfl

theorem claim_c7_witness :
    bytes_color_segments (u32le 1 ++ (u32le 0 ++ [0, 0, 0, 0, 0, 0, 0, 1, 0, 0, 0, 0])) =
      .ok ([], { val := [ColorSegment.new (Color.new 0 0 0 false) none] }) := by
  rw [(claim_c7 1 0 [0, 0, 0, 0, 0, 0, 0, 1, 0, 0, 0, 0] (by norm_num)).1]
  have hseg : bytes_color_segment [0, 0, 0, 0, 0, 0, 0, 1, 0, 0, 0, 0] =
      .ok ([], ColorSegment.new (Color.new 0 0 0 false) none) := by decide
  rw [many0_cons _ [] _ hseg (by simp)]
  rw [many0_stop [] PErr.incomplete rfl rfl]
  rfl

/-- Claim C8, counterexample: the default Colorset does not carry a
nameless default segment - its single segment has the ColorName Color0
attached, so the claim as stated is false. -/
theorem claim_c8_counterexample :
    Colorset.new ≠
      { name := { val := "NewColorset".data },
        color_segments := { val := [ColorSegment.new (Color.new 0 0 0 true) none] } } := by
  decide

/-- Claim C8, amended: Colorset::new() yields the name NewColorset and
exactly one default segment, a fully transparent black color with the
ColorName Color0 (UTF-16 byte length 12) attached. -/
theorem claim_c8 :
    Colorset.new =
      { name := { val := "NewColorset".data },
        color_segments := { val := [ColorSegment.new (Color.new 0 0 0 true)
          (some { val := "Color0".data, bytes_len_utf16 := 12 })] } } := by
  decide

/-- Claim C9: hex-color parsing is not total - Rust byte-indexed string
slicing panics when byte offset 1 is not a character boundary, which a
4-byte input starting with a 2-byte character reaches (the claim asserts
this never happens); the modelled panic is the outer none. The remaining
conjuncts show the model returns the two declared errors and Ok on the
forms the source documents. -/
theorem claim_c9 :
    parse_hex_color [Char.ofNat 233, Char.ofNat 97, Char.ofNat 98] = none ∧
    utf8Len [Char.ofNat 233, Char.ofNat 97, Char.ofNat 98] = 4 ∧
    parse_hex_color [Char.ofNat 35, Char.ofNat 70, Char.ofNat 70, Char.ofNat 69, Char.ofNat 69,
        Char.ofNat 48, Char.ofNat 48] = some (.ok (255, 238, 0)) ∧
    parse_hex_color [Char.ofNat 65, Char.ofNat 70, Char.ofNat 70, Char.ofNat 69, Char.ofNat 69,
        Char.ofNat 48, Char.ofNat 48] = some (.error ParseHexColorError.InvalidHexColorStrError) ∧
    parse_hex_color [Char.ofNat 111, Char.ofNat 107, Char.ofNat 111, Char.ofNat 107,
        Char.ofNat 111, Char.ofNat 107] = some (.error ParseHexColorError.ParseIntError) := by
  refine ⟨by decide, by decide, by decide, by decide, by decide⟩

/-- Claim C10, amended: for every Colorset satisfying the data-model
invariants, the length of as_bytes agrees with size_contents_in_cls
modulo 2^32 (the sizes are computed in u32 arithmetic), with equality
whenever the output is shorter than 2^32 bytes. -/
theorem claim_c10 (m : Char → Option (List Nat)) (c : Colorset) (hwf : c.wf = true) :
    (c.as_bytes m).length % U32MOD = c.size_contents_in_cls m ∧
    ((c.as_bytes m).length < U32MOD → (c.as_bytes m).length = c.size_contents_in_cls m) := by
  refine ⟨colorset_size_accounting m c hwf, fun hlt => ?_⟩
  rw [← colorset_size_accounting m c hwf, Nat.mod_eq_of_lt hlt]

theorem claim_c10_witness :
    (Colorset.as_bytes asciiSjis Colorset.new).length % U32MOD =
      Colorset.size_contents_in_cls asciiSjis Colorset.new :=
  (claim_c10 asciiSjis Colorset.new (by decide)).1

/-- The colorset used to refute the unqualified size claim: 2^29 bare
segments, 12 bytes each, push the encoded output past 2^32 bytes while
the u32 size arithmetic wraps. -/
def bigColorset : Colorset :=
  { name := { val := [Char.ofNat 65] },
    color_segments := { val := List.replicate 536870912 bareSeg } }

/-- Claim C10, counterexample: a well-formed Colorset of 2^29 default
segments encodes to 6442450976 bytes while size_contents_in_cls, computed
in wrapping u32 arithmetic, yields 2147483680, so the claimed equality is
false at this value. -/
theorem claim_c10_counterexample :
    Colorset.wf bigColorset = true ∧
    (Colorset.as_bytes asciiSjis bigColorset).length = 6442450976 ∧
    Colorset.size_contents_in_cls asciiSjis bigColorset = 2147483680 ∧
    (Colorset.as_bytes asciiSjis bigColorset).length ≠
      Colorset.size_contents_in_cls asciiSjis bigColorset := by
  have hsjisA : (encode_sjis asciiSjis [Char.ofNat 65]).length = 1 := by
    rw [encode_sjis_eq]
    decide
  have hwf : Colorset.wf bigColorset = true := by
    unfold bigColorset
    rw [colorset_wf_expand]
    rw [show ColorsetName.wf { val := [Char.ofNat 65] } = true from by decide, Bool.true_and]
    rw [List.all_eq_true]
    intro cs hcs
    rw [List.eq_of_mem_replicate hcs]
    decide
  have hlen : (Colorset.as_bytes asciiSjis bigColorset).length = 6442450976 := by
    unfold bigColorset
    rw [colorset_as_bytes_expand]
    rw [List.length_append, List.length_append, List.length_append,
      colorsetname_extend_length, replicate_segments_extend_length, hsjisA,
      show CLS_HEADER.length = 6 from rfl, show (u32le 4).length = 4 from rfl,
      show utf8Len [Char.ofNat 65] = 1 from rfl]
  have hsize : Colorset.size_contents_in_cls asciiSjis bigColorset = 2147483680 := by
    unfold bigColorset
    rw [colorset_size_contents_expand]
    have hA : ColorsetName.size_in_cls asciiSjis { val := [Char.ofNat 65] } = 14 := by
      unfold ColorsetName.size_in_cls ColorsetName.size_contents_in_cls
      rw [show ({ val := [Char.ofNat 65] } : ColorsetName).val = [Char.ofNat 65] from rfl,
        hsjisA, show utf8Len [Char.ofNat 65] = 1 from rfl]
      norm_num [U32MOD]
    have hB : ColorSegments.size_in_cls { val := List.replicate 536870912 bareSeg } =
        2147483656 := by
      rw [colorsegments_size_expand, replicate_segments_size_contents]
      norm_num [U32MOD]
    rw [hA, hB]
    norm_num [U32MOD]
  exact ⟨hwf, hlen, hsize, by rw [hlen, hsize]; norm_num⟩

end Cls
